import Mathlib

/-!
Verification of the Orchestrator platform core (MQTT client wrapper,
safety monitor, state manager) against its natural-language specification.

The Python sources are shallowly embedded:
  * floats are idealised as exact rationals (`ℚ`); the float `math.pi` is the
    exact rational value of the IEEE-754 double, `884279719003555 / 2^48`;
  * dictionaries carrying a single relevant numeric field are embedded as the
    field's value; JSON payloads as association lists of string key/value pairs;
  * `datetime` timestamps are rationals measured in seconds;
  * Python regular expressions produced by the code are embedded by a small
    executable matcher over the exact token shapes the code can generate.
-/

/-! ## MQTT topic matching (`MQTTClientWrapper._topic_matches_pattern`)

The Python code converts a subscription pattern to a regex with
`pattern.replace('+', '[^/]+').replace('#', '.*')` and then evaluates
`re.match(f"^{regex_pattern}$", topic)`.  We embed the result for patterns
whose characters are alphanumeric, underscore, slash, `+` or `#`.  (Any other
character would be handed to Python's regex engine as a metacharacter or
literal; such patterns are outside the embedded domain, and `toTokens`
returns `none` for them.)  The matcher below implements exactly the regex
semantics of the generated atoms: a literal character, `[^/]+` (one or more
characters other than `/`), and `.*` (any characters other than newline);
the trailing `$` of `re.match` also accepts a position just before a single
final newline, which `topicMatchesPattern` reproduces. -/

/-- Characters matched by the `[a-zA-Z0-9_]` class used throughout the code. -/
def isWordChar (c : Char) : Bool := c.isAlphanum || c == '_'

/-- One atom of the regexes generated by `_topic_matches_pattern`:
a literal character, the `[^/]+` produced from `+`, or the `.*` produced
from `#`. -/
inductive MTok where
  | lit (c : Char)
  | plus
  | hash
deriving DecidableEq, Repr

/-- Translation of a single pattern character, mirroring
`pattern.replace('+', '[^/]+').replace('#', '.*')`.  Characters outside the
word/slash alphabet are not embedded. -/
def tokChar (c : Char) : Option MTok :=
  if c = '+' then some MTok.plus
  else if c = '#' then some MTok.hash
  else if isWordChar c || c = '/' then some (MTok.lit c)
  else none

/-- Translate a whole pattern into regex atoms (`none` outside the embedded
character alphabet). -/
def toTokens : List Char → Option (List MTok)
  | [] => some []
  | c :: cs =>
    match tokChar c, toTokens cs with
    | some t, some ts => some (t :: ts)
    | _, _ => none

/-- Matching of `[^/]+` followed by a continuation `f`:
consume one or more non-slash characters, then let `f` match the rest. -/
def matchPlus (f : List Char → Bool) : List Char → Bool
  | [] => false
  | c :: s => c != '/' && (f s || matchPlus f s)

/-- Matching of `.*` followed by a continuation `f`: consume any number of
non-newline characters, then let `f` match the rest. -/
def matchHash (f : List Char → Bool) : List Char → Bool
  | [] => f []
  | c :: s => f (c :: s) || (c != '\n' && matchHash f s)

/-- Full-string matching of a token list against a character list; this is
the semantics of the anchored regex the Python code builds. -/
def reMatch : List MTok → List Char → Bool
  | [], s => s.isEmpty
  | MTok.lit _ :: _, [] => false
  | MTok.lit a :: p, c :: s => a == c && reMatch p s
  | MTok.plus :: p, s => matchPlus (reMatch p) s
  | MTok.hash :: p, s => matchHash (reMatch p) s

/-- Embedding of `MQTTClientWrapper._topic_matches_pattern(topic, pattern)`.
`re.match("^" ++ R ++ "$", topic)` succeeds iff `R` matches the whole topic,
or matches the topic minus one final newline (the `$` quirk of Python `re`).
Returns `none` when the pattern falls outside the embedded alphabet. -/
def topicMatchesPattern (topic pattern : String) : Option Bool :=
  match toTokens pattern.data with
  | none => none
  | some tks =>
    some (reMatch tks topic.data
      || (topic.data.getLast? == some '\n' && reMatch tks topic.data.dropLast))

/-! Segment structure used to state the specification's description of the
matching algorithm ("split topic and pattern on `/` ...").  `splitOnSlash`
is Python's `str.split('/')` on character lists. -/

/-- Python `s.split('/')` on character lists. -/
def splitOnSlash : List Char → List (List Char)
  | [] => [[]]
  | c :: cs =>
    if c = '/' then [] :: splitOnSlash cs
    else
      match splitOnSlash cs with
      | [] => [[c]]
      | s :: ss => (c :: s) :: ss

/-- Inverse of `splitOnSlash`: rejoin segments with `/`. -/
def joinSegs : List (List Char) → List Char
  | [] => []
  | [s] => s
  | s :: ss => s ++ '/' :: joinSegs ss

/-- A nonempty segment of word characters. -/
def isWordSeg (seg : List Char) : Bool := !seg.isEmpty && seg.all isWordChar

/-- Topics whose `/`-separated segments are all nonempty words. -/
def goodTopic (t : List Char) : Bool := (splitOnSlash t).all isWordSeg

/-- Patterns in which every segment is either a lone `+` or a nonempty word
(this includes wildcard-free patterns). -/
def goodPlusPattern (p : List Char) : Bool :=
  (splitOnSlash p).all (fun seg => seg == ['+'] || isWordSeg seg)

/-- Patterns whose final segment is a lone `#` and whose earlier segments are
nonempty words. -/
def goodHashPattern (p : List Char) : Bool :=
  (splitOnSlash p).getLast? == some ['#']
    && ((splitOnSlash p).dropLast).all isWordSeg

/-- Regex atoms generated for one pattern segment. -/
def segToks (s : List Char) : List MTok :=
  if s = ['+'] then [MTok.plus]
  else if s = ['#'] then [MTok.hash]
  else s.map MTok.lit

/-- Regex atoms generated for a whole segment list (segments joined by a
literal `/`). -/
def patToks : List (List Char) → List MTok
  | [] => []
  | [s] => segToks s
  | s :: ss => segToks s ++ MTok.lit '/' :: patToks ss

/-- The topic-matching relation exactly as the specification words it:
exact match always matches; a pattern containing `+` matches iff segment
counts are equal and every pattern segment is `+` or textually equal to the
topic segment; a pattern ending in `#` matches any topic sharing its literal
prefix (the pattern with the trailing `#` removed). -/
def specMatch (topic pattern : List Char) : Bool :=
  if pattern = topic then true
  else if '+' ∈ pattern then
    (splitOnSlash pattern).length == (splitOnSlash topic).length
      && ((splitOnSlash pattern).zip (splitOnSlash topic)).all
           (fun pr => pr.1 == ['+'] || pr.1 == pr.2)
  else if pattern.getLast? = some '#' then
    List.isPrefixOf pattern.dropLast topic
  else false

/-! ## Topic validation and publishing (`TopicValidator`, `MQTTClientWrapper.publish`)

`TopicValidator.validate_topic` tests the topic against the three anchored
regexes `^orchestrator/cmd/[a-zA-Z0-9_]+$`, `^orchestrator/data/[a-zA-Z0-9_]+$`
and `^orchestrator/status/[a-zA-Z0-9_]+$`.  As above, the trailing `$` of
Python `re.match` also accepts a position just before a single final
newline. -/

/-- Matching of `[a-zA-Z0-9_]+$` against the remainder of the topic
(with the `$`-before-final-newline quirk of Python `re`). -/
def validIdChars (cs : List Char) : Bool :=
  let t := if cs.getLast? == some '\n' then cs.dropLast else cs
  !t.isEmpty && t.all isWordChar

/-- Matching of one of the three topic regexes: the literal three-part head
followed by `[a-zA-Z0-9_]+$`. -/
def checkTopicHead (pre topic : List Char) : Bool :=
  List.isPrefixOf pre topic && validIdChars (topic.drop pre.length)

/-- Embedding of `TopicValidator.validate_topic`. -/
def validate_topic (topic : String) : Bool :=
  checkTopicHead "orchestrator/cmd/".data topic.data
    || checkTopicHead "orchestrator/data/".data topic.data
    || checkTopicHead "orchestrator/status/".data topic.data

/-- The topic schema as the specification words it: one of the three shapes
`orchestrator/cmd/<id>`, `orchestrator/data/<id>`, `orchestrator/status/<id>`
with `<id>` a nonempty identifier.  Stated from the specification's words to
compare with the code's `validate_topic`. -/
def topicShapeSpec (topic : String) : Prop :=
  ∃ kind : String, kind ∈ (["cmd", "data", "status"] : List String) ∧
    ∃ id : List Char, id ≠ [] ∧ (∀ c ∈ id, isWordChar c = true) ∧
      topic.data = ("orchestrator/" ++ kind ++ "/").data ++ id

/-- Result of `MQTTClientWrapper.publish`: the boolean return value, the
payload dictionary after the call (the code mutates the caller's dictionary),
and what was handed to the network client, if anything. -/
structure PublishResult where
  ok : Bool
  payload : List (String × String)
  sent : Option (List (String × String))
deriving DecidableEq, Repr

/-- Python `'timestamp' in payload`. -/
def hasKey (p : List (String × String)) (k : String) : Bool := p.any (fun kv => kv.1 == k)

/-- Embedding of `MQTTClientWrapper.publish(topic, payload, qos, retain)`.
The checks happen in the code's order: connection first, then topic
validation; only then is a `timestamp` field injected when absent, the
payload serialised and handed to the client (serialisation to JSON text is
abstracted away: `sent` carries the field map).  `now` is the injected
`datetime.now().isoformat()` value. -/
def publish (connected : Bool) (topic : String) (payload : List (String × String))
    (now : String) : PublishResult :=
  if !connected then ⟨false, payload, none⟩
  else if !validate_topic topic then ⟨false, payload, none⟩
  else
    let p2 := if hasKey payload "timestamp" then payload else payload ++ [("timestamp", now)]
    ⟨true, p2, some p2⟩

/-! ## Reconnection backoff (`MQTTClientWrapper._on_connect`, `_reconnect_loop`)

`_reconnect_loop` doubles `_reconnect_delay` (capping it at
`max_reconnect_delay`) after every failed connection attempt;
`_on_connect` with `rc == 0` resets it to `base_reconnect_delay`. -/

/-- A connection-lifecycle event relevant to the backoff delay. -/
inductive ConnEvent where
  | fail
  | success
deriving DecidableEq, Repr

/-- The two delay fields of `MQTTConfig` (integers, seconds). -/
structure ReconnectSettings where
  baseReconnectDelay : ℕ
  maxReconnectDelay : ℕ
deriving DecidableEq, Repr

/-- Delay transition: a failed attempt executes
`min(self._reconnect_delay * 2, self.config.max_reconnect_delay)`; a
successful connection executes
`self._reconnect_delay = self.config.base_reconnect_delay`. -/
def reconnectStep (cfg : ReconnectSettings) (d : ℕ) : ConnEvent → ℕ
  | ConnEvent.fail => min (d * 2) cfg.maxReconnectDelay
  | ConnEvent.success => cfg.baseReconnectDelay

/-- The delay after a sequence of connection events, starting from the base
delay (`self._reconnect_delay = config.base_reconnect_delay` in
`__init__`). -/
def delayAfter (cfg : ReconnectSettings) (events : List ConnEvent) : ℕ :=
  events.foldl (reconnectStep cfg) cfg.baseReconnectDelay

/-! ## Safety monitor (`SafetyMonitor`)

Angles and distances are rationals; `datetime` timestamps are rationals in
seconds.  Severity and action strings are kept as strings, exactly as in the
code. -/

/-- Embedding of the `SafetyZone` dataclass. -/
structure SafetyZone where
  name : String
  min_angle : ℚ
  max_angle : ℚ
  min_distance : ℚ
  priority : ℕ
  action : String
deriving DecidableEq, Repr

/-- Embedding of the `ObstacleDetection` dataclass. -/
structure ObstacleDetection where
  timestamp : ℚ
  distance : ℚ
  angle : ℚ
  zone : String
  severity : String
deriving DecidableEq, Repr

/-- Python's `angle % 360` (floored modulo, result in `[0, 360)`). -/
def normalizeAngle (a : ℚ) : ℚ := a - 360 * ((Int.floor (a / 360) : ℤ) : ℚ)

/-- The angular-membership test of `_check_zone_for_obstacles`: the non-wrap
branch when `min_angle <= max_angle`, the wrap branch otherwise. -/
def inZone (zone : SafetyZone) (angle : ℚ) : Bool :=
  let normalized := normalizeAngle angle
  if zone.min_angle ≤ zone.max_angle then
    decide (zone.min_angle ≤ normalized ∧ normalized ≤ zone.max_angle)
  else
    decide (normalized ≥ zone.min_angle ∨ normalized ≤ zone.max_angle)

/-- The full per-point obstacle test of `_check_zone_for_obstacles`:
angular membership plus `0.1 <= distance <= zone.min_distance`. -/
def isObstaclePoint (zone : SafetyZone) (distance angle : ℚ) : Bool :=
  inZone zone angle && decide (1/10 ≤ distance ∧ distance ≤ zone.min_distance)

/-- Embedding of `SafetyMonitor._check_zone_for_obstacles`: iterate over
`zip(ranges, angles)` and collect the `(distance, angle)` pairs that pass the
obstacle test. -/
def checkZoneForObstacles (zone : SafetyZone) (ranges angles : List ℚ) : List (ℚ × ℚ) :=
  (ranges.zip angles).filter (fun p => isObstaclePoint zone p.1 p.2)

/-- The default front stop zone built by `_initialize_safety_zones`. -/
def criticalFrontZone (threshold : ℚ) : SafetyZone :=
  ⟨"critical_front", -45, 45, threshold, 1, "stop"⟩

/-- The default left warning zone built by `_initialize_safety_zones`. -/
def warningLeftZone (threshold : ℚ) : SafetyZone :=
  ⟨"warning_left", 45, 135, threshold * (7/10), 2, "slow"⟩

/-- The default right warning zone built by `_initialize_safety_zones`. -/
def warningRightZone (threshold : ℚ) : SafetyZone :=
  ⟨"warning_right", 225, 315, threshold * (7/10), 2, "slow"⟩

/-- The zone list built by `_initialize_safety_zones` when the configuration
supplies no custom zones (`threshold` is `safety_config.obstacle_threshold`). -/
def defaultSafetyZones (threshold : ℚ) : List SafetyZone :=
  [criticalFrontZone threshold, warningLeftZone threshold, warningRightZone threshold]

/-- The mutable safety state of `SafetyMonitor` relevant to emergency-stop
latching: the latch, the last received scan (`last_lidar_data`), the rolling
detection history, and the trigger counter.  Performance counters are
omitted. -/
structure MonitorState where
  emergencyStopActive : Bool
  lastLidarData : Option (List ℚ × List ℚ)
  obstacleDetections : List ObstacleDetection
  emergencyStopsTriggered : ℕ
deriving DecidableEq, Repr

/-- All detections one scan produces in `_process_lidar_data`: for each zone
in order, every obstacle point becomes an `ObstacleDetection` stamped `now`,
with severity `"critical"` exactly for `action == "stop"` zones. -/
def scanDetections (zones : List SafetyZone) (ranges angles : List ℚ) (now : ℚ) :
    List ObstacleDetection :=
  zones.flatMap (fun zone =>
    (checkZoneForObstacles zone ranges angles).map (fun p =>
      ⟨now, p.1, p.2, zone.name, if zone.action == "stop" then "critical" else "warning"⟩))

/-- The `critical_obstacles` list accumulated by `_process_lidar_data`
(zone order, then scan order within a zone). -/
def criticalDetections (zones : List SafetyZone) (ranges angles : List ℚ) (now : ℚ) :
    List ObstacleDetection :=
  (scanDetections zones ranges angles now).filter (fun d => d.severity == "critical")

/-- The `warning_obstacles` list accumulated by `_process_lidar_data`. -/
def warningDetections (zones : List SafetyZone) (ranges angles : List ℚ) (now : ℚ) :
    List ObstacleDetection :=
  (scanDetections zones ranges angles now).filter (fun d => d.severity == "warning")

/-- Python `min(obstacles, key=lambda x: x.distance)`: the first obstacle of
minimal distance; `none` on an empty list (where Python raises). -/
def closestObstacle : List ObstacleDetection → Option ObstacleDetection
  | [] => none
  | d :: ds => some (ds.foldl (fun acc x => if x.distance < acc.distance then x else acc) d)

/-- Embedding of `SafetyMonitor._trigger_emergency_stop`.  Returns the new
state together with the emergency-stop commands published by the call, each
represented by the closest obstacle it reports.  While the latch is already
active, the method returns before mutating anything or publishing.  On an
empty obstacle list the latch and counter are still set before `min([])`
raises; the exception is swallowed by the `except` clause, so nothing is
published (this path is unreachable from `_process_lidar_data`). -/
def triggerEmergencyStop (s : MonitorState) (obstacles : List ObstacleDetection) :
    MonitorState × List ObstacleDetection :=
  if s.emergencyStopActive then (s, [])
  else
    let s2 := { s with emergencyStopActive := true,
                       emergencyStopsTriggered := s.emergencyStopsTriggered + 1 }
    match closestObstacle obstacles with
    | none => (s2, [])
    | some c => (s2, [c])

/-- The history cap of `_process_lidar_data`: if more than 1000 detections
are stored, keep only the last 500 (`self.obstacle_detections[-500:]`). -/
def trimHist (hist : List ObstacleDetection) : List ObstacleDetection :=
  if hist.length > 1000 then hist.drop (hist.length - 500) else hist

/-- Embedding of `SafetyMonitor._process_lidar_data`: drop the scan on a
ranges/angles length mismatch; otherwise trigger an emergency stop when any
critical detection exists, then append criticals and warnings to the rolling
history and trim it.  The second component is the list of emergency-stop
commands published while processing the scan. -/
def processLidarData (s : MonitorState) (zones : List SafetyZone)
    (ranges angles : List ℚ) (now : ℚ) : MonitorState × List ObstacleDetection :=
  if ranges.length ≠ angles.length then (s, [])
  else
    let criticals := criticalDetections zones ranges angles now
    let warnings := warningDetections zones ranges angles now
    let sp := if criticals.isEmpty then (s, []) else triggerEmergencyStop s criticals
    let s1 := sp.1
    let hist2 := trimHist (s1.obstacleDetections ++ (criticals ++ warnings))
    ({ s1 with obstacleDetections := hist2 }, sp.2)

/-- Embedding of `SafetyMonitor._check_emergency_stop_reset`: while latched
and with at least one scan stored, clear the latch iff none of the **last
ten** entries of the rolling history (`self.obstacle_detections[-10:]`) is a
critical detection whose timestamp lies within the last 3 seconds. -/
def checkEmergencyStopReset (s : MonitorState) (now : ℚ) : MonitorState :=
  if s.emergencyStopActive = false then s
  else
    match s.lastLidarData with
    | none => s
    | some _ =>
      let recentCritical :=
        (s.obstacleDetections.drop (s.obstacleDetections.length - 10)).filter
          (fun d => d.severity == "critical" && decide (now - d.timestamp < 3))
      if recentCritical.isEmpty then { s with emergencyStopActive := false } else s

/-! ## State manager (`StateManager`)

`math.pi` is a double; `piq` is its exact rational value.  The two `while`
loops of `_update_odometry` that renormalize the heading are embedded as
well-founded recursions `loop1` and `loop2`. -/

/-- The exact rational value of the IEEE-754 double `math.pi`. -/
def piq : ℚ := 884279719003555 / 281474976710656

/-- The loop `while heading > math.pi: heading -= 2 * math.pi`. -/
def loop1 (h : ℚ) : ℚ :=
  if piq < h then loop1 (h - 2 * piq) else h
termination_by (Int.ceil ((h - piq) / (2 * piq))).toNat
decreasing_by
  have hpi : 0 < piq := by norm_num [piq]
  have h2 : (0:ℚ) < 2 * piq := by linarith
  have hq : (0:ℚ) < (h - piq) / (2 * piq) := div_pos (by linarith) h2
  have hceil : 0 < Int.ceil ((h - piq) / (2 * piq)) := Int.ceil_pos.mpr hq
  have harg : (h - 2 * piq - piq) / (2 * piq) = (h - piq) / (2 * piq) - 1 := by
    field_simp
    ring
  rw [harg, Int.ceil_sub_one]
  omega

/-- The loop `while heading < -math.pi: heading += 2 * math.pi`. -/
def loop2 (h : ℚ) : ℚ :=
  if h < -piq then loop2 (h + 2 * piq) else h
termination_by (Int.ceil ((-piq - h) / (2 * piq))).toNat
decreasing_by
  have hpi : 0 < piq := by norm_num [piq]
  have h2 : (0:ℚ) < 2 * piq := by linarith
  have hq : (0:ℚ) < (-piq - h) / (2 * piq) := div_pos (by linarith) h2
  have hceil : 0 < Int.ceil ((-piq - h) / (2 * piq)) := Int.ceil_pos.mpr hq
  have harg : (-piq - (h + 2 * piq)) / (2 * piq) = (-piq - h) / (2 * piq) - 1 := by
    field_simp
    ring
  rw [harg, Int.ceil_sub_one]
  omega

/-- The heading renormalization of `_update_odometry`: first the
subtracting loop, then the adding loop. -/
def normalizeHeading (h : ℚ) : ℚ := loop2 (loop1 h)

/-- Embedding of the `Position` dataclass. -/
structure Position where
  x : ℚ
  y : ℚ
deriving DecidableEq, Repr

/-- Embedding of the `Velocity` dataclass. -/
structure Velocity where
  linear : ℚ
  angular : ℚ
deriving DecidableEq, Repr

/-- Embedding of the `RobotState` dataclass (`encoder_data` omitted;
`last_updated` is a rational timestamp). -/
structure RobotState where
  position : Position
  heading : ℚ
  velocity : Velocity
  status : String
  mission_status : String
  last_updated : ℚ
  odometry_valid : Bool
deriving DecidableEq, Repr

/-- The mutable fields of `StateManager` used by odometry and commands.
`leftEncoderData`/`rightEncoderData` are `None` until the corresponding
encoder has reported; afterwards they carry the reported cumulative
`total_distance` (the handlers store the payload's `data` dictionary, of
which only that field is read, via `.get('total_distance', 0.0)`). -/
structure StateMgr where
  robotState : RobotState
  leftEncoderData : Option ℚ
  rightEncoderData : Option ℚ
  lastLeftDistance : ℚ
  lastRightDistance : ℚ
  lastUpdateTime : ℚ
deriving DecidableEq, Repr

/-- Embedding of `StateManager._update_odometry`.  `wheelBase` is the
configured wheel base, `cosq`/`sinq` stand for `math.cos`/`math.sin`, and
`now` is `time.time()`.  If `dt < 0.001` the whole update returns with no
state change; otherwise heading is updated and renormalized first, the new
heading is used to advance the position, and velocities are set from the
deltas. -/
def updateOdometry (wheelBase : ℚ) (cosq sinq : ℚ → ℚ) (s : StateMgr) (now : ℚ) : StateMgr :=
  let dt := now - s.lastUpdateTime
  if dt < 1/1000 then s
  else
    let leftDistance := s.leftEncoderData.getD 0
    let rightDistance := s.rightEncoderData.getD 0
    let deltaLeft := leftDistance - s.lastLeftDistance
    let deltaRight := rightDistance - s.lastRightDistance
    let deltaDistance := (deltaLeft + deltaRight) / 2
    let deltaHeading := (deltaRight - deltaLeft) / wheelBase
    let heading2 := normalizeHeading (s.robotState.heading + deltaHeading)
    let pos2 : Position := ⟨s.robotState.position.x + deltaDistance * cosq heading2,
                            s.robotState.position.y + deltaDistance * sinq heading2⟩
    { s with
      robotState := { s.robotState with
        heading := heading2,
        position := pos2,
        velocity := ⟨deltaDistance / dt, deltaHeading / dt⟩,
        last_updated := now,
        odometry_valid := true },
      lastLeftDistance := leftDistance,
      lastRightDistance := rightDistance,
      lastUpdateTime := now }

/-- Embedding of `StateManager._reset_odometry`: zero the pose and velocity
and re-baseline the last-seen wheel distances to the current encoder values
(when an encoder has reported). -/
def resetOdometry (s : StateMgr) (now : ℚ) : StateMgr :=
  { s with
    robotState := { s.robotState with
      position := ⟨0, 0⟩,
      heading := 0,
      velocity := ⟨0, 0⟩,
      last_updated := now },
    lastLeftDistance := match s.leftEncoderData with
      | some d => d
      | none => s.lastLeftDistance,
    lastRightDistance := match s.rightEncoderData with
      | some d => d
      | none => s.lastRightDistance }

/-- Embedding of `StateManager._set_position`: a direct override of the
position and heading; the heading is stored exactly as supplied, with no
renormalization. -/
def setPosition (s : StateMgr) (x y heading now : ℚ) : StateMgr :=
  { s with robotState := { s.robotState with
      position := ⟨x, y⟩,
      heading := heading,
      last_updated := now } }

/-- The `valid_statuses` list of `StateManager._set_status`. -/
def validStatuses : List String := ["active", "idle", "error", "emergency_stop"]

/-- Embedding of `StateManager._set_status`: apply the status only when it
is in `valid_statuses`; otherwise log and leave the whole state unchanged. -/
def setStatus (s : StateMgr) (status : String) (now : ℚ) : StateMgr :=
  if status ∈ validStatuses then
    { s with robotState := { s.robotState with status := status, last_updated := now } }
  else s

/-- Embedding of `StateManager._handle_left_encoder_data`: store the left
encoder value and run the odometry update only if the right encoder has
already reported. -/
def handleLeftEncoderData (wheelBase : ℚ) (cosq sinq : ℚ → ℚ) (s : StateMgr)
    (totalDistance now : ℚ) : StateMgr :=
  let s2 := { s with leftEncoderData := some totalDistance }
  if s2.rightEncoderData.isSome then updateOdometry wheelBase cosq sinq s2 now else s2

/-- Embedding of `StateManager._handle_right_encoder_data`. -/
def handleRightEncoderData (wheelBase : ℚ) (cosq sinq : ℚ → ℚ) (s : StateMgr)
    (totalDistance now : ℚ) : StateMgr :=
  let s2 := { s with rightEncoderData := some totalDistance }
  if s2.leftEncoderData.isSome then updateOdometry wheelBase cosq sinq s2 now else s2

/-! ## Concrete states used by witnesses and counterexamples -/

/-- A critical detection stamped 1 second before the reference time 100. -/
def cexCritical : ObstacleDetection := ⟨99, 3/10, 0, "critical_front", "critical"⟩

/-- A warning detection stamped half a second before the reference time 100. -/
def cexWarning : ObstacleDetection := ⟨199/2, 1, 90, "warning_left", "warning"⟩

/-- Monitor state latched after a critical detection, with ten warning
detections appended to the rolling history afterwards. -/
def c1CexState : MonitorState :=
  ⟨true, some ([], []), cexCritical :: List.replicate 10 cexWarning, 1⟩

/-- Monitor state latched with an empty history. -/
def monLatchedEmpty : MonitorState := ⟨true, some ([], []), [], 1⟩

/-- Monitor state before any trigger. -/
def monIdle : MonitorState := ⟨false, none, [], 0⟩

/-- A `stop` zone around the front with a 0.5 m threshold, as in the
specification's test scenario. -/
def stopZoneHalf : SafetyZone := ⟨"critical_front", -45, 45, 1/2, 1, "stop"⟩

/-- The initial `RobotState` built by `StateManager.__init__`. -/
def initRobotState : RobotState := ⟨⟨0, 0⟩, 0, ⟨0, 0⟩, "idle", "idle", 0, true⟩

/-- The initial `StateMgr` built by `StateManager.__init__` (encoder data
absent, baselines zero). -/
def initStateMgr : StateMgr := ⟨initRobotState, none, none, 0, 0, 0⟩

/-- A state-manager state at the zero baseline whose encoders have reported
the `∓ wheelBase·π/4` wheel distances of the canonical 90-degree turn, for
the default wheel base 0.3. -/
def turnStateMgr : StateMgr :=
  ⟨initRobotState, some (-(3/10 * piq / 4)), some (3/10 * piq / 4), 0, 0, 0⟩

/-! ## Theorems -/

theorem piq_pos : 0 < piq := by norm_num [piq]

theorem piq_lower : (3141 : ℚ)/1000 < piq := by norm_num [piq]

theorem piq_upper : piq < (3142 : ℚ)/1000 := by norm_num [piq]

theorem loop1_le (h : ℚ) : loop1 h ≤ piq := by
  induction h using loop1.induct with
  | case1 h hlt ih => rw [loop1, if_pos hlt]; exact ih
  | case2 h hnlt => rw [loop1, if_neg hnlt]; exact not_lt.mp hnlt

theorem loop1_lower (h : ℚ) (hl : -piq ≤ h) : -piq ≤ loop1 h := by
  induction h using loop1.induct with
  | case1 h hlt ih => rw [loop1, if_pos hlt]; exact ih (by linarith)
  | case2 h hnlt => rw [loop1, if_neg hnlt]; exact hl

theorem loop2_ge (h : ℚ) : -piq ≤ loop2 h := by
  induction h using loop2.induct with
  | case1 h hlt ih => rw [loop2, if_pos hlt]; exact ih
  | case2 h hnlt => rw [loop2, if_neg hnlt]; exact not_lt.mp hnlt

theorem loop2_le (h : ℚ) (hu : h ≤ piq) : loop2 h ≤ piq := by
  induction h using loop2.induct with
  | case1 h hlt ih => rw [loop2, if_pos hlt]; exact ih (by linarith)
  | case2 h hnlt => rw [loop2, if_neg hnlt]; exact hu

theorem loop1_id (h : ℚ) (hle : h ≤ piq) : loop1 h = h := by
  rw [loop1, if_neg (not_lt.mpr hle)]

theorem loop2_id (h : ℚ) (hge : -piq ≤ h) : loop2 h = h := by
  rw [loop2, if_neg (not_lt.mpr hge)]

theorem normalizeHeading_mem (h : ℚ) :
    -piq ≤ normalizeHeading h ∧ normalizeHeading h ≤ piq :=
  ⟨loop2_ge _, loop2_le _ (loop1_le h)⟩

theorem normalizeHeading_id (h : ℚ) (hge : -piq ≤ h) (hle : h ≤ piq) :
    normalizeHeading h = h := by
  rw [normalizeHeading, loop1_id h hle, loop2_id h hge]

/-- Claim C4 (amended): the odometry update renormalizes the heading into the
closed interval `[-π, π]` whenever it is not skipped by the `dt < 1 ms` guard
(the value `-π` itself is a fixed point of the renormalization loops, so the
half-open interval `(-π, π]` of the original claim is not the invariant);
`reset_odometry` sets the heading to `0`; and `set_position` stores the
supplied heading exactly as given, with no renormalization at all. -/
theorem odometry_heading_range (wheelBase : ℚ) (cosq sinq : ℚ → ℚ) (s : StateMgr)
    (now x y hdg now2 : ℚ) :
    (¬(now - s.lastUpdateTime < 1/1000) →
       -piq ≤ (updateOdometry wheelBase cosq sinq s now).robotState.heading
         ∧ (updateOdometry wheelBase cosq sinq s now).robotState.heading ≤ piq)
    ∧ (resetOdometry s now).robotState.heading = 0
    ∧ (setPosition s x y hdg now2).robotState.heading = hdg
    ∧ normalizeHeading (-piq) = -piq := by
  refine ⟨?_, rfl, rfl, ?_⟩
  · intro hdt
    rw [updateOdometry, if_neg hdt]
    exact normalizeHeading_mem _
  · exact normalizeHeading_id _ le_rfl (by linarith [piq_pos])

theorem odometry_heading_range_witness :
    -piq ≤ (updateOdometry (3/10) (fun _ => 1) (fun _ => 0) turnStateMgr 1).robotState.heading
      ∧ (updateOdometry (3/10) (fun _ => 1) (fun _ => 0) turnStateMgr 1).robotState.heading ≤ piq :=
  (odometry_heading_range (3/10) (fun _ => 1) (fun _ => 0) turnStateMgr 1 0 0 0 0).1
    (by norm_num [turnStateMgr])

/-- Claim C4 counterexample: `set_position` with heading `10` stores `10`,
which lies outside `(-π, π]` (indeed `π < 10`), so the claim that the stored
heading lies in `(-π, π]` after every `set_position` fails on the code. -/
theorem set_position_unnormalized_cex :
    (setPosition initStateMgr 0 0 10 5).robotState.heading = 10
      ∧ piq < 10
      ∧ ¬((setPosition initStateMgr 0 0 10 5).robotState.heading ≤ piq) := by
  refine ⟨rfl, by norm_num [piq], ?_⟩
  show ¬((10 : ℚ) ≤ piq)
  norm_num [piq]

/-- Claim C5: with both encoders having reported, `_update_odometry` either
skips entirely when `dt < 1 ms` (no state change at all), or computes
`deltaDist = (deltaLeft + deltaRight)/2` and
`deltaHeading = (deltaRight - deltaLeft)/wheelBase`, renormalizes the heading
first, advances the position along the **new** heading, sets the velocities
to `deltaDist/dt` and `deltaHeading/dt`, and re-baselines the tracking
variables.  From the zero baseline, wheel deltas of `∓ wheelBase·π/4`
produce a heading change of exactly `π/2` for the float value of `π` (a
value within `0.0005` of the real `π/2`). -/
theorem odometry_update_contract (wheelBase : ℚ) (cosq sinq : ℚ → ℚ) (s : StateMgr)
    (now l r : ℚ) (hwb : 0 < wheelBase)
    (hl : s.leftEncoderData = some l) (hr : s.rightEncoderData = some r) :
    (now - s.lastUpdateTime < 1/1000 → updateOdometry wheelBase cosq sinq s now = s)
    ∧ (1/1000 ≤ now - s.lastUpdateTime →
        (updateOdometry wheelBase cosq sinq s now).robotState.heading
            = normalizeHeading (s.robotState.heading
                + ((r - s.lastRightDistance) - (l - s.lastLeftDistance)) / wheelBase)
        ∧ (updateOdometry wheelBase cosq sinq s now).robotState.position.x
            = s.robotState.position.x
              + ((l - s.lastLeftDistance) + (r - s.lastRightDistance)) / 2
                * cosq ((updateOdometry wheelBase cosq sinq s now).robotState.heading)
        ∧ (updateOdometry wheelBase cosq sinq s now).robotState.position.y
            = s.robotState.position.y
              + ((l - s.lastLeftDistance) + (r - s.lastRightDistance)) / 2
                * sinq ((updateOdometry wheelBase cosq sinq s now).robotState.heading)
        ∧ (updateOdometry wheelBase cosq sinq s now).robotState.velocity.linear
            = ((l - s.lastLeftDistance) + (r - s.lastRightDistance)) / 2
                / (now - s.lastUpdateTime)
        ∧ (updateOdometry wheelBase cosq sinq s now).robotState.velocity.angular
            = ((r - s.lastRightDistance) - (l - s.lastLeftDistance)) / wheelBase
                / (now - s.lastUpdateTime)
        ∧ (updateOdometry wheelBase cosq sinq s now).lastLeftDistance = l
        ∧ (updateOdometry wheelBase cosq sinq s now).lastRightDistance = r
        ∧ (updateOdometry wheelBase cosq sinq s now).lastUpdateTime = now)
    ∧ (s.robotState.heading = 0 → s.lastLeftDistance = 0 → s.lastRightDistance = 0 →
        l = -(wheelBase * piq / 4) → r = wheelBase * piq / 4 →
        1/1000 ≤ now - s.lastUpdateTime →
        (updateOdometry wheelBase cosq sinq s now).robotState.heading = piq / 2
          ∧ (1570 : ℚ)/1000 < piq / 2 ∧ piq / 2 < (1571 : ℚ)/1000) := by
  refine ⟨?_, ?_, ?_⟩
  · intro hdt
    rw [updateOdometry, if_pos hdt]
  · intro hdt
    rw [updateOdometry, if_neg (not_lt.mpr hdt)]
    simp [hl, hr]
  · intro h0 hll hrr hle hre hdt
    have hne : wheelBase ≠ 0 := ne_of_gt hwb
    constructor
    · rw [updateOdometry, if_neg (not_lt.mpr hdt)]
      simp only [hl, hr, Option.getD_some]
      rw [h0, hll, hrr, hle, hre]
      have harg : (0 : ℚ) + (wheelBase * piq / 4 - 0 - (-(wheelBase * piq / 4) - 0)) / wheelBase
          = piq / 2 := by
        field_simp
        ring
      rw [harg]
      exact normalizeHeading_id _ (by linarith [piq_pos]) (by linarith [piq_pos])
    · exact ⟨by linarith [piq_lower], by linarith [piq_upper]⟩

theorem odometry_update_contract_witness :
    (updateOdometry (3/10) (fun _ => 1) (fun _ => 0) turnStateMgr 1).robotState.heading = piq / 2 :=
  ((odometry_update_contract (3/10) (fun _ => 1) (fun _ => 0) turnStateMgr 1
      (-(3/10 * piq / 4)) (3/10 * piq / 4) (by norm_num) rfl rfl).2.2
    rfl rfl rfl rfl rfl (by norm_num [turnStateMgr])).1

/-- Claim C9 (amended): `_set_status` validates against the status list
actually present in the code, `{"active", "idle", "error", "emergency_stop"}`;
a status in that list is stored and nothing else of the pose is touched, any
other string (including `"stopped"`, which the specification's enum also
lists) is rejected with the whole state left unchanged. -/
theorem set_status_validation (s : StateMgr) (st : String) (now : ℚ) :
    (st ∈ validStatuses →
       (setStatus s st now).robotState.status = st
         ∧ (setStatus s st now).robotState.position = s.robotState.position
         ∧ (setStatus s st now).robotState.heading = s.robotState.heading
         ∧ (setStatus s st now).robotState.velocity = s.robotState.velocity)
    ∧ (st ∉ validStatuses → setStatus s st now = s)
    ∧ "stopped" ∉ validStatuses := by
  refine ⟨?_, ?_, by decide⟩
  · intro hmem
    rw [setStatus, if_pos hmem]
    exact ⟨rfl, rfl, rfl, rfl⟩
  · intro hmem
    rw [setStatus, if_neg hmem]

theorem set_status_validation_witness :
    (setStatus initStateMgr "active" 1).robotState.status = "active" :=
  ((set_status_validation initStateMgr "active" 1).1 (by decide)).1

/-- Claim C9 counterexample: `set_status("stopped")` is rejected by the code
(the state is returned unchanged, the status stays `"idle"`), although the
claim's status enum contains `stopped` and therefore demands that the stored
status become `"stopped"`. -/
theorem set_status_stopped_cex :
    setStatus initStateMgr "stopped" 5 = initStateMgr
      ∧ (setStatus initStateMgr "stopped" 5).robotState.status = "idle"
      ∧ ("stopped" : String) ≠ "idle" := by
  refine ⟨?_, ?_, by decide⟩
  · rw [setStatus, if_neg (by decide)]
  · rw [setStatus, if_neg (by decide)]
    rfl

/-- Claim C7: along every event sequence starting from the base delay, the
reconnect delay stays at or below the configured maximum (provided the base
itself does not exceed it), a failed attempt doubles it with a cap at the
maximum, and a successful connection resets it to the base value. -/
theorem reconnect_backoff (cfg : ReconnectSettings)
    (hbm : cfg.baseReconnectDelay ≤ cfg.maxReconnectDelay) (evs : List ConnEvent) :
    delayAfter cfg evs ≤ cfg.maxReconnectDelay
    ∧ delayAfter cfg (evs ++ [ConnEvent.fail])
        = min (delayAfter cfg evs * 2) cfg.maxReconnectDelay
    ∧ delayAfter cfg (evs ++ [ConnEvent.success]) = cfg.baseReconnectDelay := by
  refine ⟨?_, ?_, ?_⟩
  · have key : ∀ (l : List ConnEvent) (d : ℕ), d ≤ cfg.maxReconnectDelay →
        l.foldl (reconnectStep cfg) d ≤ cfg.maxReconnectDelay := by
      intro l
      induction l with
      | nil => intro d hd; exact hd
      | cons e tl ih =>
        intro d hd
        cases e with
        | fail => exact ih _ (min_le_right _ _)
        | success => exact ih _ hbm
    exact key evs _ hbm
  · simp [delayAfter, List.foldl_append, reconnectStep]
  · simp [delayAfter, List.foldl_append, reconnectStep]

theorem reconnect_backoff_witness :
    delayAfter ⟨1, 300⟩ [ConnEvent.fail, ConnEvent.fail] ≤ 300
      ∧ delayAfter ⟨1, 300⟩ [ConnEvent.fail, ConnEvent.fail, ConnEvent.success] = 1 :=
  ⟨(reconnect_backoff ⟨1, 300⟩ (by norm_num) [ConnEvent.fail, ConnEvent.fail]).1,
   (reconnect_backoff ⟨1, 300⟩ (by norm_num) [ConnEvent.fail, ConnEvent.fail]).2.2⟩

theorem normalizeAngle_bounds (a : ℚ) : 0 ≤ normalizeAngle a ∧ normalizeAngle a < 360 := by
  have h1 : normalizeAngle a = 360 * Int.fract (a / 360) := by
    rw [Int.fract]
    rw [normalizeAngle]
    ring
  constructor
  · rw [h1]
    exact mul_nonneg (by norm_num) (Int.fract_nonneg _)
  · rw [h1]
    have h2 := Int.fract_lt_one (a / 360)
    linarith

/-- Claim C2: the scan-point angle is normalized into `[0, 360)`; zone
membership uses `min_angle ≤ angle ≤ max_angle` in the non-wrap case and
`angle ≥ min_angle ∨ angle ≤ max_angle` in the wrap case; a point is an
obstacle for the zone iff it is in-zone and `0.1 ≤ distance ≤ min_distance`;
and the wrap zone `min_angle=350, max_angle=10` contains the angles `359`
and `1`. -/
theorem zone_membership_contract (z : SafetyZone) (d a : ℚ) (ranges angles : List ℚ) :
    (0 ≤ normalizeAngle a ∧ normalizeAngle a < 360)
    ∧ (z.min_angle ≤ z.max_angle →
        (inZone z a = true ↔
          z.min_angle ≤ normalizeAngle a ∧ normalizeAngle a ≤ z.max_angle))
    ∧ (z.max_angle < z.min_angle →
        (inZone z a = true ↔
          normalizeAngle a ≥ z.min_angle ∨ normalizeAngle a ≤ z.max_angle))
    ∧ (isObstaclePoint z d a = true ↔
        inZone z a = true ∧ 1/10 ≤ d ∧ d ≤ z.min_distance)
    ∧ ((d, a) ∈ checkZoneForObstacles z ranges angles ↔
        (d, a) ∈ ranges.zip angles ∧ isObstaclePoint z d a = true)
    ∧ (inZone ⟨"wrap", 350, 10, 1/2, 1, "stop"⟩ 359 = true
        ∧ inZone ⟨"wrap", 350, 10, 1/2, 1, "stop"⟩ 1 = true) := by
  have h359 : normalizeAngle 359 = 359 := by
    rw [normalizeAngle]
    norm_num
  have h1 : normalizeAngle 1 = 1 := by
    rw [normalizeAngle]
    norm_num
  refine ⟨normalizeAngle_bounds a, ?_, ?_, ?_, ?_, ?_, ?_⟩
  · intro hmm
    rw [inZone]
    simp [hmm]
  · intro hmm
    rw [inZone]
    simp [not_le.mpr hmm]
  · rw [isObstaclePoint]
    simp
  · rw [checkZoneForObstacles]
    simp [List.mem_filter]
  · rw [inZone]
    norm_num [h359]
  · rw [inZone]
    norm_num [h1]

theorem zone_membership_contract_witness : inZone stopZoneHalf 0 = true :=
  ((zone_membership_contract stopZoneHalf (3/10) 0 [] []).2.1 (by norm_num [stopZoneHalf])).mpr
    (by rw [normalizeAngle]; norm_num [stopZoneHalf])

theorem front_zone_excludes_sector (threshold a : ℚ) (hsector : 315 ≤ normalizeAngle a) :
    inZone (criticalFrontZone threshold) a = false := by
  rw [inZone, criticalFrontZone]
  simp only []
  rw [if_pos (by norm_num)]
  simp only [decide_eq_false_iff_not]
  intro hcon
  have := hcon.2
  linarith

theorem sector_no_critical (threshold : ℚ) (ranges angles : List ℚ) (now : ℚ)
    (hang : ∀ x ∈ angles, 315 ≤ normalizeAngle x) :
    criticalDetections (defaultSafetyZones threshold) ranges angles now = [] := by
  apply List.filter_eq_nil_iff.mpr
  intro d hd
  rcases List.mem_flatMap.mp hd with ⟨zone, hz, hdz⟩
  have hfront : checkZoneForObstacles (criticalFrontZone threshold) ranges angles = [] := by
    apply List.filter_eq_nil_iff.mpr
    intro p hp
    obtain ⟨pd, pa⟩ := p
    have hpa : pa ∈ angles := (List.of_mem_zip hp).2
    simp only [isObstaclePoint, Bool.and_eq_true, not_and, Bool.not_eq_true]
    intro hzone
    rw [front_zone_excludes_sector threshold pa (hang pa hpa)] at hzone
    cases hzone
  rcases List.mem_cons.mp hz with h1 | hz2
  · subst h1
    rw [hfront] at hdz
    simp at hdz
  · rcases List.mem_cons.mp hz2 with h2 | hz3
    · subst h2
      rcases List.mem_map.mp hdz with ⟨p, hp, hpe⟩
      subst hpe
      simp [warningLeftZone]
    · rcases List.mem_cons.mp hz3 with h3 | hz4
      · subst h3
        rcases List.mem_map.mp hdz with ⟨p, hp, hpe⟩
        subst hpe
        simp [warningRightZone]
      · simp at hz4

/-- Claim C10: the default front stop zone is built with
`min_angle = -45, max_angle = 45`, the non-wrap branch applies, and every
point whose normalized angle lies in `[315, 360)` (e.g. `-10°`, which
normalizes to `350°`) is outside the front zone whatever its distance; a
scan consisting only of such points publishes no emergency stop and leaves
the latch and trigger counter unchanged under the default zone
configuration. -/
theorem default_front_zone_blind (threshold d now a : ℚ) (s : MonitorState)
    (ranges angles : List ℚ) (hsector : 315 ≤ normalizeAngle a) :
    inZone (criticalFrontZone threshold) a = false
    ∧ isObstaclePoint (criticalFrontZone threshold) d a = false
    ∧ normalizeAngle (-10) = 350
    ∧ ((∀ x ∈ angles, 315 ≤ normalizeAngle x) →
        (processLidarData s (defaultSafetyZones threshold) ranges angles now).2 = []
        ∧ (processLidarData s (defaultSafetyZones threshold) ranges angles now).1.emergencyStopActive
            = s.emergencyStopActive
        ∧ (processLidarData s (defaultSafetyZones threshold) ranges angles now).1.emergencyStopsTriggered
            = s.emergencyStopsTriggered) := by
  refine ⟨front_zone_excludes_sector threshold a hsector, ?_, ?_, ?_⟩
  · rw [isObstaclePoint, front_zone_excludes_sector threshold a hsector]
    rfl
  · rw [normalizeAngle]
    norm_num
  · intro hang
    have hcrit := sector_no_critical threshold ranges angles now hang
    by_cases hlen : ranges.length ≠ angles.length
    · rw [processLidarData, if_pos hlen]
      exact ⟨rfl, rfl, rfl⟩
    · rw [processLidarData, if_neg hlen]
      simp [hcrit]

theorem default_front_zone_blind_witness :
    isObstaclePoint (criticalFrontZone (1/2)) (1/5) (-10) = false :=
  (default_front_zone_blind (1/2) (1/5) 0 (-10) monIdle [] []
    (by rw [normalizeAngle]; norm_num)).2.1

/-- Claim C1 (amended): while the latch is active, `_check_emergency_stop_reset`
clears it exactly when a scan has been stored and none of the **last ten**
entries of the rolling detection history is a critical detection within the
3-second clear window.  Criticals older in position than the last ten entries
are ignored, so the latch can clear even while a critical detection within
the window is still in the history (see the counterexample). -/
theorem estop_clear_uses_last_ten (s : MonitorState) (now : ℚ)
    (hactive : s.emergencyStopActive = true) :
    ((checkEmergencyStopReset s now).emergencyStopActive = false ↔
       (s.lastLidarData ≠ none ∧
         ∀ d ∈ s.obstacleDetections.drop (s.obstacleDetections.length - 10),
           d.severity = "critical" → 3 ≤ now - d.timestamp))
    ∧ (checkEmergencyStopReset s now).obstacleDetections = s.obstacleDetections
    ∧ (checkEmergencyStopReset s now).emergencyStopsTriggered = s.emergencyStopsTriggered := by
  rw [checkEmergencyStopReset, if_neg (by rw [hactive]; simp)]
  rcases hld : s.lastLidarData with _ | scan
  · refine ⟨?_, rfl, rfl⟩
    rw [hactive]
    simp
  · have hfilter :
        ((s.obstacleDetections.drop (s.obstacleDetections.length - 10)).filter
            (fun d => d.severity == "critical" && decide (now - d.timestamp < 3))).isEmpty = true
          ↔ ∀ d ∈ s.obstacleDetections.drop (s.obstacleDetections.length - 10),
              d.severity = "critical" → 3 ≤ now - d.timestamp := by
      rw [List.isEmpty_iff, List.filter_eq_nil_iff]
      constructor
      · intro hall d hd hcrit
        have := hall d hd
        simp [hcrit] at this
        linarith
      · intro hall d hd
        simp only [Bool.and_eq_true, beq_iff_eq, decide_eq_true_eq, not_and]
        intro hcrit
        have := hall d hd hcrit
        linarith
    by_cases hemp :
        ((s.obstacleDetections.drop (s.obstacleDetections.length - 10)).filter
            (fun d => d.severity == "critical" && decide (now - d.timestamp < 3))).isEmpty = true
    · rw [if_pos hemp]
      refine ⟨?_, rfl, rfl⟩
      simp only [hld]
      constructor
      · intro _
        exact ⟨by simp, hfilter.mp hemp⟩
      · intro _
        trivial
    · rw [if_neg hemp]
      refine ⟨?_, rfl, rfl⟩
      rw [hactive]
      constructor
      · intro h
        cases h
      · intro hcond
        exact absurd (hfilter.mpr hcond.2) hemp

/-- Claim C1 counterexample: with a critical detection 1 second old in the
history followed by ten newer non-critical detections, the reset check clears
the latch even though a critical detection well inside the 3-second window is
still present in the rolling history — refuting the claim that the latch
clears only when no critical anywhere in the history is within the window,
"regardless of how many non-critical detections have been appended". -/
theorem estop_clear_cex :
    (checkEmergencyStopReset c1CexState 100).emergencyStopActive = false
    ∧ (∃ d ∈ c1CexState.obstacleDetections, d.severity = "critical" ∧ 100 - d.timestamp < 3)
    ∧ (∀ d ∈ List.replicate 10 cexWarning, d.severity ≠ "critical") := by
  refine ⟨?_, ⟨cexCritical, ?_, rfl, ?_⟩, ?_⟩
  · simp [checkEmergencyStopReset, c1CexState, cexWarning, cexCritical]
  · simp [c1CexState]
  · norm_num [cexCritical]
  · simp [List.mem_replicate, cexWarning]

theorem estop_clear_uses_last_ten_witness :
    (checkEmergencyStopReset monLatchedEmpty 0).emergencyStopActive = false :=
  (estop_clear_uses_last_ten monLatchedEmpty 0 rfl).1.mpr
    ⟨by simp [monLatchedEmpty], by simp [monLatchedEmpty]⟩

theorem criticalDetections_props (zones : List SafetyZone) (ranges angles : List ℚ) (now : ℚ) :
    ∀ d ∈ criticalDetections zones ranges angles now,
      d.timestamp = now ∧ d.severity = "critical" := by
  intro d hd
  rcases List.mem_filter.mp hd with ⟨hmem, hsev⟩
  refine ⟨?_, by simpa using hsev⟩
  rcases List.mem_flatMap.mp hmem with ⟨zone, _, hdz⟩
  rcases List.mem_map.mp hdz with ⟨p, _, hpe⟩
  subst hpe
  rfl

theorem trigger_keeps_detections (s : MonitorState) (obstacles : List ObstacleDetection) :
    (triggerEmergencyStop s obstacles).1.obstacleDetections = s.obstacleDetections := by
  rw [triggerEmergencyStop]
  by_cases ha : s.emergencyStopActive
  · rw [if_pos ha]
  · rw [if_neg ha]
    cases closestObstacle obstacles <;> rfl

/-- Claim C3: while the latch is active, a scan with new critical detections
publishes nothing and leaves the trigger counter untouched, but its
detections are still appended (fresh timestamp, critical severity) to the
rolling history before trimming; the scan that first sets the latch
publishes exactly one emergency-stop command. -/
theorem estop_trigger_idempotent (s : MonitorState) (zones : List SafetyZone)
    (ranges angles : List ℚ) (now : ℚ) (hlen : ranges.length = angles.length) :
    (s.emergencyStopActive = true →
       (processLidarData s zones ranges angles now).2 = []
       ∧ (processLidarData s zones ranges angles now).1.emergencyStopsTriggered
           = s.emergencyStopsTriggered
       ∧ (processLidarData s zones ranges angles now).1.emergencyStopActive = true)
    ∧ (s.emergencyStopActive = false →
        criticalDetections zones ranges angles now ≠ [] →
        (processLidarData s zones ranges angles now).2.length = 1
        ∧ (processLidarData s zones ranges angles now).1.emergencyStopActive = true
        ∧ (processLidarData s zones ranges angles now).1.emergencyStopsTriggered
            = s.emergencyStopsTriggered + 1)
    ∧ (∀ d ∈ criticalDetections zones ranges angles now,
         d.timestamp = now ∧ d.severity = "critical")
    ∧ (processLidarData s zones ranges angles now).1.obstacleDetections
        = trimHist (s.obstacleDetections
            ++ (criticalDetections zones ranges angles now
                ++ warningDetections zones ranges angles now))
    ∧ (criticalDetections zones ranges angles now ≠ [] →
        (s.obstacleDetections
            ++ (criticalDetections zones ranges angles now
                ++ warningDetections zones ranges angles now)).length ≤ 1000 →
        ∃ d ∈ (processLidarData s zones ranges angles now).1.obstacleDetections,
          d.severity = "critical" ∧ d.timestamp = now) := by
  have hnotne : ¬(ranges.length ≠ angles.length) := fun h => h hlen
  refine ⟨?_, ?_, criticalDetections_props zones ranges angles now, ?_, ?_⟩
  · intro hactive
    rw [processLidarData, if_neg hnotne]
    by_cases hemp : (criticalDetections zones ranges angles now).isEmpty
    · simp [hemp, hactive]
    · simp only [hemp, Bool.false_eq_true, if_false]
      rw [triggerEmergencyStop, if_pos hactive]
      exact ⟨rfl, rfl, hactive⟩
  · intro hactive hne
    rw [processLidarData, if_neg hnotne]
    have hemp : (criticalDetections zones ranges angles now).isEmpty = false := by
      rcases hcd2 : criticalDetections zones ranges angles now with _ | ⟨c, cs⟩
      · exact absurd hcd2 hne
      · rfl
    simp only [hemp, Bool.false_eq_true, if_false]
    rw [triggerEmergencyStop, if_neg (by rw [hactive]; simp)]
    rcases hcd : criticalDetections zones ranges angles now with _ | ⟨c, cs⟩
    · exact absurd hcd hne
    · rw [closestObstacle]
      exact ⟨rfl, rfl, rfl⟩
  · rw [processLidarData, if_neg hnotne]
    by_cases hemp : (criticalDetections zones ranges angles now).isEmpty
    · simp [hemp]
    · simp only [hemp, Bool.false_eq_true, if_false]
      rw [trigger_keeps_detections]
  · intro hne hlen2
    rcases hcd : criticalDetections zones ranges angles now with _ | ⟨c, cs⟩
    · exact absurd hcd hne
    · refine ⟨c, ?_,
        (criticalDetections_props zones ranges angles now c
          (by rw [hcd]; exact List.mem_cons_self c cs)).2,
        (criticalDetections_props zones ranges angles now c
          (by rw [hcd]; exact List.mem_cons_self c cs)).1⟩
      rw [processLidarData, if_neg hnotne]
      by_cases hemp : (criticalDetections zones ranges angles now).isEmpty
      · rw [hcd] at hemp
        cases hemp
      · simp only [hemp, Bool.false_eq_true, if_false]
        rw [trigger_keeps_detections, trimHist, if_neg (by omega)]
        refine List.mem_append.mpr (Or.inr (List.mem_append.mpr (Or.inl ?_)))
        rw [hcd]
        exact List.mem_cons_self c cs

theorem normalizeAngle_zero : normalizeAngle 0 = 0 := by
  rw [normalizeAngle]
  norm_num

theorem stopZoneHalf_critical :
    criticalDetections [stopZoneHalf] [3/10] [0] 5 ≠ [] := by
  have hin : inZone stopZoneHalf 0 = true := by
    rw [inZone, stopZoneHalf]
    simp only [normalizeAngle_zero]
    norm_num
  simp [criticalDetections, scanDetections, checkZoneForObstacles, isObstaclePoint, hin]
  rw [stopZoneHalf]
  norm_num

theorem estop_trigger_idempotent_witness :
    (processLidarData monIdle [stopZoneHalf] [3/10] [0] 5).2.length = 1 :=
  ((estop_trigger_idempotent monIdle [stopZoneHalf] [3/10] [0] 5 rfl).2.1 rfl
    stopZoneHalf_critical).1

theorem isPrefixOf_iff_append (l1 l2 : List Char) :
    l1.isPrefixOf l2 = true ↔ ∃ t, l2 = l1 ++ t := by
  rw [List.isPrefixOf_iff_prefix]
  constructor
  · rintro ⟨t, ht⟩
    exact ⟨t, ht.symm⟩
  · rintro ⟨t, ht⟩
    exact ⟨t, ht.symm⟩

theorem wordChar_ne_newline (c : Char) (h : isWordChar c = true) : c ≠ '\n' := by
  intro he
  subst he
  simp [isWordChar] at h

theorem validIdChars_of_word (id : List Char) (hne : id ≠ [])
    (hw : ∀ c ∈ id, isWordChar c = true) : validIdChars id = true := by
  rw [validIdChars]
  have hlast : id.getLast? ≠ some '\n' := by
    intro hl
    have : '\n' ∈ id := by
      rcases List.getLast?_eq_some_iff.mp hl with ⟨l, hl2⟩
      rw [hl2]
      exact List.mem_concat_self l '\n'
    exact wordChar_ne_newline '\n' (hw '\n' this) rfl
  rw [if_neg (by simpa using hlast)]
  simp [List.isEmpty_iff, hne, List.all_eq_true]
  exact hw

theorem checkTopicHead_iff (pre t : List Char) (hnl : ∀ c ∈ t, c ≠ '\n') :
    checkTopicHead pre t = true ↔
      ∃ id, id ≠ [] ∧ (∀ c ∈ id, isWordChar c = true) ∧ t = pre ++ id := by
  rw [checkTopicHead, Bool.and_eq_true]
  constructor
  · rintro ⟨hp, hid⟩
    rcases (isPrefixOf_iff_append pre t).mp hp with ⟨rest, hrest⟩
    subst hrest
    rw [List.drop_left] at hid
    rw [validIdChars] at hid
    have hrl : rest.getLast? ≠ some '\n' := by
      intro hl
      have hmem : '\n' ∈ rest := by
        rcases List.getLast?_eq_some_iff.mp hl with ⟨l, hl2⟩
        rw [hl2]
        exact List.mem_concat_self l '\n'
      exact hnl '\n' (List.mem_append_right pre hmem) rfl
    rw [if_neg (by simpa using hrl)] at hid
    simp only [Bool.and_eq_true] at hid
    obtain ⟨hne, hall⟩ := hid
    refine ⟨rest, ?_, ?_, rfl⟩
    · intro he
      subst he
      simp at hne
    · intro c hc
      exact List.all_eq_true.mp hall c hc
  · rintro ⟨id, hne, hw, rfl⟩
    refine ⟨(isPrefixOf_iff_append pre (pre ++ id)).mpr ⟨id, rfl⟩, ?_⟩
    rw [List.drop_left]
    exact validIdChars_of_word id hne hw

theorem validate_topic_shape (topic : String) (hnl : ∀ c ∈ topic.data, c ≠ '\n') :
    validate_topic topic = true ↔ topicShapeSpec topic := by
  have hcmd : ("orchestrator/" ++ "cmd" ++ "/" : String) = "orchestrator/cmd/" := rfl
  have hdata : ("orchestrator/" ++ "data" ++ "/" : String) = "orchestrator/data/" := rfl
  have hstatus : ("orchestrator/" ++ "status" ++ "/" : String) = "orchestrator/status/" := rfl
  rw [validate_topic]
  simp only [Bool.or_eq_true]
  rw [checkTopicHead_iff _ _ hnl, checkTopicHead_iff _ _ hnl, checkTopicHead_iff _ _ hnl]
  constructor
  · rintro ((⟨id, hne, hw, he⟩ | ⟨id, hne, hw, he⟩) | ⟨id, hne, hw, he⟩)
    · exact ⟨"cmd", by simp, id, hne, hw, by rw [he, hcmd]⟩
    · exact ⟨"data", by simp, id, hne, hw, by rw [he, hdata]⟩
    · exact ⟨"status", by simp, id, hne, hw, by rw [he, hstatus]⟩
  · rintro ⟨kind, hkind, id, hne, hw, he⟩
    simp only [List.mem_cons, List.not_mem_nil, or_false] at hkind
    rcases hkind with hk | hk | hk
    all_goals subst hk
    · exact Or.inl (Or.inl ⟨id, hne, hw, by rw [he, hcmd]⟩)
    · exact Or.inl (Or.inr ⟨id, hne, hw, by rw [he, hdata]⟩)
    · exact Or.inr ⟨id, hne, hw, by rw [he, hstatus]⟩

/-- Claim C8: `publish` fails immediately with the caller's payload untouched
and nothing sent when the client is not connected or the topic fails
validation (connection is checked first); otherwise a `timestamp` field is
injected exactly when absent and the resulting payload is handed to the
client.  For newline-free topics, passing validation coincides with matching
one of the three shapes `orchestrator/{cmd,data,status}/<id>` with a
nonempty identifier of word characters (a topic with one trailing newline is
additionally accepted by Python's `$`). -/
theorem publish_contract (connected : Bool) (topic : String)
    (payload : List (String × String)) (now : String) :
    ((publish connected topic payload now).ok = true ↔
       connected = true ∧ validate_topic topic = true)
    ∧ ((publish connected topic payload now).ok = false →
         (publish connected topic payload now).payload = payload
         ∧ (publish connected topic payload now).sent = none)
    ∧ ((publish connected topic payload now).ok = true →
         (publish connected topic payload now).sent
             = some ((publish connected topic payload now).payload)
         ∧ hasKey ((publish connected topic payload now).payload) "timestamp" = true
         ∧ (hasKey payload "timestamp" = true →
             (publish connected topic payload now).payload = payload)
         ∧ (hasKey payload "timestamp" = false →
             (publish connected topic payload now).payload = payload ++ [("timestamp", now)]))
    ∧ ((∀ c ∈ topic.data, c ≠ '\n') →
        (validate_topic topic = true ↔ topicShapeSpec topic)) := by
  refine ⟨?_, ?_, ?_, validate_topic_shape topic⟩
  · cases connected with
    | false => simp [publish]
    | true =>
      by_cases hv : validate_topic topic
      · rw [publish]
        simp [hv]
      · rw [publish]
        simp [hv]
  · intro hok
    cases connected with
    | false => exact ⟨rfl, rfl⟩
    | true =>
      by_cases hv : validate_topic topic
      · rw [publish] at hok
        simp [hv] at hok
      · rw [publish]
        simp [hv]
  · intro hok
    cases connected with
    | false =>
      rw [publish] at hok
      simp at hok
    | true =>
      by_cases hv : validate_topic topic
      · rw [publish]
        simp only [Bool.not_true, Bool.false_eq_true, if_false, hv, if_true]
        by_cases hk : hasKey payload "timestamp"
        · simp [hk]
        · have hkf : hasKey payload "timestamp" = false := by simpa using hk
          refine ⟨by simp [hk], ?_, ?_, by simp [hk]⟩
          · simp only [hkf, Bool.false_eq_true, if_false]
            rw [hasKey, List.any_append]
            have h2 : List.any [("timestamp", now)] (fun kv => kv.1 == "timestamp") = true := by
              simp
            rw [h2, Bool.or_true]
          · intro hk2
            exact absurd hk2 hk
      · rw [publish] at hok
        simp [hv] at hok

theorem publish_contract_witness :
    (publish true "orchestrator/status/robot" [] "T").ok = true :=
  (publish_contract true "orchestrator/status/robot" [] "T").1.mpr ⟨rfl, by decide⟩

theorem bool_eq_of_iff (a b : Bool) (h : a = true ↔ b = true) : a = b := by
  cases a <;> cases b <;> simp_all

theorem band_eq (a b : Bool) : (a && b) = true ↔ a = true ∧ b = true := by
  cases a <;> cases b <;> simp

theorem bor_eq (a b : Bool) : (a || b) = true ↔ a = true ∨ b = true := by
  cases a <;> cases b <;> simp

theorem splitOnSlash_ne_nil (t : List Char) : splitOnSlash t ≠ [] := by
  induction t with
  | nil => simp [splitOnSlash]
  | cons c cs ih =>
    rw [splitOnSlash]
    by_cases hc : c = '/'
    · simp [hc]
    · rw [if_neg hc]
      rcases hsp : splitOnSlash cs with _ | ⟨s, ss⟩
      · exact absurd hsp ih
      · simp

theorem splitOnSlash_no_slash (t : List Char) (h : '/' ∉ t) : splitOnSlash t = [t] := by
  induction t with
  | nil => rfl
  | cons c cs ih =>
    rw [splitOnSlash]
    have hc : ¬(c = '/') := fun he => h (he ▸ List.mem_cons_self c cs)
    rw [if_neg hc]
    rw [ih (fun hm => h (List.mem_cons_of_mem c hm))]

theorem splitOnSlash_append (u s : List Char) (hu : '/' ∉ u) :
    splitOnSlash (u ++ '/' :: s) = u :: splitOnSlash s := by
  induction u with
  | nil => simp [splitOnSlash]
  | cons c cs ih =>
    have hc : ¬(c = '/') := fun he => hu (he ▸ List.mem_cons_self c cs)
    rw [List.cons_append, splitOnSlash, if_neg hc,
      ih (fun hm => hu (List.mem_cons_of_mem c hm))]

theorem splitOnSlash_structure (t : List Char) :
    ('/' ∉ t ∧ splitOnSlash t = [t])
    ∨ (∃ u s, t = u ++ '/' :: s ∧ '/' ∉ u ∧ splitOnSlash t = u :: splitOnSlash s) := by
  by_cases hs : '/' ∈ t
  · right
    rcases List.append_of_mem hs with ⟨u1, s1, he⟩
    -- take the first slash: strengthen by induction instead
    clear he u1 s1
    induction t with
    | nil => cases hs
    | cons c cs ih =>
      by_cases hc : c = '/'
      · subst hc
        exact ⟨[], cs, rfl, by simp, by rw [splitOnSlash]; simp⟩
      · have hs2 : '/' ∈ cs := by
          rcases List.mem_cons.mp hs with h1 | h2
          · exact absurd h1.symm hc
          · exact h2
        rcases ih hs2 with ⟨u, s, he, hu, hsp⟩
        refine ⟨c :: u, s, by rw [he]; rfl, ?_, ?_⟩
        · intro hm
          rcases List.mem_cons.mp hm with h1 | h2
          · exact hc h1.symm
          · exact hu h2
        · rw [he] at hsp ⊢
          rw [splitOnSlash, if_neg hc, hsp]
  · exact Or.inl ⟨hs, splitOnSlash_no_slash t hs⟩

theorem joinSegs_cons_ne (s : List Char) (ss : List (List Char)) (h : ss ≠ []) :
    joinSegs (s :: ss) = s ++ '/' :: joinSegs ss := by
  rcases ss with _ | ⟨x, xs⟩
  · exact absurd rfl h
  · rfl

theorem joinSegs_splitOnSlash (t : List Char) : joinSegs (splitOnSlash t) = t := by
  induction t with
  | nil => rfl
  | cons c cs ih =>
    rw [splitOnSlash]
    by_cases hc : c = '/'
    · rw [if_pos hc, joinSegs_cons_ne [] (splitOnSlash cs) (splitOnSlash_ne_nil cs), ih, hc]
      rfl
    · rw [if_neg hc]
      rcases hsp : splitOnSlash cs with _ | ⟨s, ss⟩
      · exact absurd hsp (splitOnSlash_ne_nil cs)
      · rw [hsp] at ih
        rcases ss with _ | ⟨y, ys⟩
        · rw [joinSegs] at ih ⊢
          rw [ih]
        · rw [joinSegs_cons_ne _ _ (by simp)] at ih
          rw [joinSegs_cons_ne _ _ (by simp), List.cons_append, ih]

theorem matchPlus_iff (f : List Char → Bool) (s : List Char) :
    matchPlus f s = true ↔
      ∃ u s2, s = u ++ s2 ∧ u ≠ [] ∧ (∀ c ∈ u, c ≠ '/') ∧ f s2 = true := by
  induction s with
  | nil =>
    rw [matchPlus]
    constructor
    · intro h
      cases h
    · rintro ⟨u, s2, he, hne, _, _⟩
      exact absurd (List.append_eq_nil.mp he.symm).1 hne
  | cons c s ih =>
    rw [matchPlus]
    constructor
    · intro hm
      simp only [Bool.and_eq_true, Bool.or_eq_true, bne_iff_ne, ne_eq] at hm
      rcases hm with ⟨hc, hf | hmp⟩
      · exact ⟨[c], s, rfl, by simp, by simpa using hc, hf⟩
      · rcases ih.mp hmp with ⟨u, s2, he, hne, hu, hf⟩
        exact ⟨c :: u, s2, by rw [he]; rfl, by simp,
          by intro x hx; rcases List.mem_cons.mp hx with h1 | h2;
             · exact h1 ▸ hc
             · exact hu x h2,
          hf⟩
    · rintro ⟨u, s2, he, hne, hu, hf⟩
      rcases u with _ | ⟨c2, u2⟩
      · exact absurd rfl hne
      · rw [List.cons_append] at he
        injection he with he1 he2
        subst he1
        simp only [Bool.and_eq_true, Bool.or_eq_true, bne_iff_ne, ne_eq]
        refine ⟨hu c (List.mem_cons_self c u2), ?_⟩
        rcases u2 with _ | ⟨c3, u3⟩
        · simp at he2
          subst he2
          exact Or.inl hf
        · refine Or.inr (ih.mpr ⟨c3 :: u3, s2, he2, by simp, ?_, hf⟩)
          intro x hx
          exact hu x (List.mem_cons_of_mem c hx)

theorem matchHash_iff (f : List Char → Bool) (s : List Char) :
    matchHash f s = true ↔
      ∃ u s2, s = u ++ s2 ∧ (∀ c ∈ u, c ≠ '\n') ∧ f s2 = true := by
  induction s with
  | nil =>
    rw [matchHash]
    constructor
    · intro hf
      exact ⟨[], [], rfl, by simp, hf⟩
    · rintro ⟨u, s2, he, _, hf⟩
      rcases List.append_eq_nil.mp he.symm with ⟨h1, h2⟩
      subst h1; subst h2
      exact hf
  | cons c s ih =>
    rw [matchHash]
    constructor
    · intro hm
      simp only [Bool.or_eq_true, Bool.and_eq_true, bne_iff_ne, ne_eq] at hm
      rcases hm with hf | ⟨hc, hmh⟩
      · exact ⟨[], c :: s, rfl, by simp, hf⟩
      · rcases ih.mp hmh with ⟨u, s2, he, hu, hf⟩
        exact ⟨c :: u, s2, by rw [he]; rfl,
          by intro x hx; rcases List.mem_cons.mp hx with h1 | h2;
             · exact h1 ▸ hc
             · exact hu x h2,
          hf⟩
    · rintro ⟨u, s2, he, hu, hf⟩
      simp only [Bool.or_eq_true, Bool.and_eq_true, bne_iff_ne, ne_eq]
      rcases u with _ | ⟨c2, u2⟩
      · simp at he
        subst he
        exact Or.inl hf
      · rw [List.cons_append] at he
        injection he with he1 he2
        subst he1
        refine Or.inr ⟨hu c (List.mem_cons_self c u2), ih.mpr ⟨u2, s2, he2, ?_, hf⟩⟩
        intro x hx
        exact hu x (List.mem_cons_of_mem c hx)

theorem reMatch_nil_iff (s : List Char) : reMatch [] s = true ↔ s = [] := by
  rw [reMatch]
  simp [List.isEmpty_iff]

theorem reMatch_lits (w : List Char) (p : List MTok) (s : List Char) :
    reMatch (w.map MTok.lit ++ p) s = true ↔
      ∃ s2, s = w ++ s2 ∧ reMatch p s2 = true := by
  induction w generalizing s with
  | nil =>
    exact ⟨fun h => ⟨s, rfl, h⟩, by rintro ⟨s2, rfl, h⟩; exact h⟩
  | cons a w ih =>
    rcases s with _ | ⟨c, s⟩
    · simp only [List.map_cons, List.cons_append]
      rw [reMatch]
      constructor
      · intro h
        cases h
      · rintro ⟨s2, he, _⟩
        cases he
    · simp only [List.map_cons, List.cons_append]
      rw [reMatch]
      simp only [Bool.and_eq_true, beq_iff_eq]
      constructor
      · rintro ⟨rfl, hm⟩
        rcases (ih s).mp hm with ⟨s2, rfl, hp⟩
        exact ⟨s2, rfl, hp⟩
      · rintro ⟨s2, he, hp⟩
        injection he with he1 he2
        exact ⟨he1.symm, (ih s).mpr ⟨s2, he2, hp⟩⟩

theorem wordChar_ne (c : Char) (h : isWordChar c = true) :
    c ≠ '/' ∧ c ≠ '+' ∧ c ≠ '#' := by
  refine ⟨?_, ?_, ?_⟩ <;> intro he <;> subst he <;> simp [isWordChar] at h

theorem wordSeg_not_mem_slash (w : List Char) (h : isWordSeg w = true) : '/' ∉ w := by
  intro hm
  rcases (band_eq _ _).mp h with ⟨_, hall⟩
  exact (wordChar_ne '/' (List.all_eq_true.mp hall '/' hm)).1 rfl

theorem wordSeg_ne_plus (w : List Char) (h : isWordSeg w = true) : w ≠ ['+'] := by
  intro he
  subst he
  rcases (band_eq _ _).mp h with ⟨_, hall⟩
  exact (wordChar_ne '+' (List.all_eq_true.mp hall '+' (by simp))).2.1 rfl

theorem wordSeg_ne_hash (w : List Char) (h : isWordSeg w = true) : w ≠ ['#'] := by
  intro he
  subst he
  rcases (band_eq _ _).mp h with ⟨_, hall⟩
  exact (wordChar_ne '#' (List.all_eq_true.mp hall '#' (by simp))).2.2 rfl

theorem wordSeg_ne_nil (w : List Char) (h : isWordSeg w = true) : w ≠ [] := by
  intro he
  subst he
  simp [isWordSeg] at h

theorem mem_joinSegs_cases (c : Char) (ss : List (List Char)) (h : c ∈ joinSegs ss) :
    c = '/' ∨ ∃ seg ∈ ss, c ∈ seg := by
  induction ss with
  | nil => cases h
  | cons s ss ih =>
    rcases ss with _ | ⟨x, xs⟩
    · exact Or.inr ⟨s, by simp, h⟩
    · rw [joinSegs_cons_ne s (x :: xs) (by simp)] at h
      rcases List.mem_append.mp h with h1 | h2
      · exact Or.inr ⟨s, by simp, h1⟩
      · rcases List.mem_cons.mp h2 with h3 | h4
        · exact Or.inl h3
        · rcases ih h4 with h5 | ⟨seg, hseg, hc⟩
          · exact Or.inl h5
          · exact Or.inr ⟨seg, List.mem_cons_of_mem s hseg, hc⟩

theorem mem_joinSegs_of_mem (c : Char) (seg : List Char) (ss : List (List Char))
    (hs : seg ∈ ss) (hc : c ∈ seg) : c ∈ joinSegs ss := by
  induction ss with
  | nil => cases hs
  | cons s ss ih =>
    rcases ss with _ | ⟨x, xs⟩
    · rcases List.mem_cons.mp hs with h1 | h2
      · subst h1
        exact hc
      · cases h2
    · rw [joinSegs_cons_ne s (x :: xs) (by simp)]
      rcases List.mem_cons.mp hs with h1 | h2
      · subst h1
        exact List.mem_append.mpr (Or.inl hc)
      · exact List.mem_append.mpr (Or.inr (List.mem_cons_of_mem '/' (ih h2)))

theorem goodTopic_chars (t : List Char) (ht : goodTopic t = true) (c : Char) (hc : c ∈ t) :
    isWordChar c = true ∨ c = '/' := by
  rw [← joinSegs_splitOnSlash t] at hc
  rcases mem_joinSegs_cases c (splitOnSlash t) hc with h1 | ⟨seg, hseg, hcs⟩
  · exact Or.inr h1
  · left
    have hw := List.all_eq_true.mp ht seg hseg
    rcases (band_eq _ _).mp hw with ⟨_, hall⟩
    exact List.all_eq_true.mp hall c hcs

theorem goodTopic_cons (u s : List Char) (hu : '/' ∉ u) :
    goodTopic (u ++ '/' :: s) = (isWordSeg u && goodTopic s) := by
  rw [goodTopic, goodTopic, splitOnSlash_append u s hu, List.all_cons]

theorem toTokens_append (xs ys : List Char) :
    toTokens (xs ++ ys)
      = match toTokens xs, toTokens ys with
        | some a, some b => some (a ++ b)
        | _, _ => none := by
  induction xs with
  | nil =>
    rw [List.nil_append]
    rcases h : toTokens ys with _ | b
    · rfl
    · rfl
  | cons c cs ih =>
    rw [List.cons_append, toTokens, toTokens, ih]
    rcases tokChar c with _ | tk <;> rcases toTokens cs with _ | a <;>
      rcases toTokens ys with _ | b <;> rfl

theorem toTokens_word (w : List Char) (hw : ∀ c ∈ w, isWordChar c = true) :
    toTokens w = some (w.map MTok.lit) := by
  induction w with
  | nil => rfl
  | cons c cs ih =>
    have hc := hw c (List.mem_cons_self c cs)
    have hcc := wordChar_ne c hc
    rw [toTokens, ih (fun x hx => hw x (List.mem_cons_of_mem c hx))]
    rw [tokChar, if_neg hcc.2.1, if_neg hcc.2.2, if_pos (by rw [hc]; rfl)]
    rfl

theorem segToks_word (w : List Char) (h : isWordSeg w = true) :
    segToks w = w.map MTok.lit := by
  rw [segToks, if_neg (wordSeg_ne_plus w h), if_neg (wordSeg_ne_hash w h)]

theorem toTokens_patToks (segs : List (List Char))
    (h : ∀ seg ∈ segs, seg = ['+'] ∨ seg = ['#'] ∨ isWordSeg seg = true) :
    toTokens (joinSegs segs) = some (patToks segs) := by
  induction segs with
  | nil => rfl
  | cons s ss ih =>
    have hs := h s (List.mem_cons_self s ss)
    have hone : toTokens s = some (segToks s) := by
      rcases hs with h1 | h2 | h3
      · subst h1
        rfl
      · subst h2
        rfl
      · rw [toTokens_word s (fun c hc => by
          rcases (band_eq _ _).mp h3 with ⟨_, hall⟩
          exact List.all_eq_true.mp hall c hc), segToks_word s h3]
    rcases ss with _ | ⟨x, xs⟩
    · rw [joinSegs, patToks]
      exact hone
    · rw [joinSegs_cons_ne s (x :: xs) (List.cons_ne_nil x xs), patToks, toTokens_append]
      rw [hone]
      have hrest : toTokens ('/' :: joinSegs (x :: xs))
          = some (MTok.lit '/' :: patToks (x :: xs)) := by
        rw [toTokens, ih (fun seg hseg => h seg (List.mem_cons_of_mem s hseg))]
        rfl
      rw [hrest]
      exact List.cons_ne_nil x xs

theorem patToks_cons (s x : List Char) (xs : List (List Char)) :
    patToks (s :: x :: xs) = segToks s ++ MTok.lit '/' :: patToks (x :: xs) := rfl

theorem reMatch_slash_cons (P : List MTok) (s : List Char) :
    reMatch (MTok.lit '/' :: P) s = true ↔ ∃ s2, s = '/' :: s2 ∧ reMatch P s2 = true := by
  rcases s with _ | ⟨c, s⟩
  · rw [reMatch]
    constructor
    · intro h
      cases h
    · rintro ⟨s2, he, _⟩
      cases he
  · rw [reMatch]
    rw [band_eq]
    simp only [beq_iff_eq]
    constructor
    · rintro ⟨rfl, hm⟩
      exact ⟨s, rfl, hm⟩
    · rintro ⟨s2, he, hm⟩
      injection he with he1 he2
      subst he1
      subst he2
      exact ⟨rfl, hm⟩

theorem wordSeg_no_slash_chars (w : List Char) (h : isWordSeg w = true) :
    ∀ c ∈ w, c ≠ '/' := by
  intro c hc
  rcases (band_eq _ _).mp h with ⟨_, hall⟩
  exact (wordChar_ne c (List.all_eq_true.mp hall c hc)).1

theorem goodTopic_single (t : List Char) (ht : goodTopic t = true) (hs : '/' ∉ t) :
    isWordSeg t = true := by
  rw [goodTopic, splitOnSlash_no_slash t hs] at ht
  simpa using ht

theorem reMatch_plusSegs (ps : List (List Char)) :
    ∀ t : List Char,
      ps ≠ [] →
      (∀ seg ∈ ps, seg = ['+'] ∨ isWordSeg seg = true) →
      goodTopic t = true →
      (reMatch (patToks ps) t = true ↔
        (ps.length = (splitOnSlash t).length ∧
          ∀ pr ∈ ps.zip (splitOnSlash t), pr.1 = ['+'] ∨ pr.1 = pr.2)) := by
  induction ps with
  | nil => intro t hne; exact absurd rfl hne
  | cons seg tail ih =>
    intro t _ hsegs ht
    have hseg := hsegs seg (List.mem_cons_self seg tail)
    rcases tail with _ | ⟨s2, rest⟩
    · -- singleton pattern
      have hsplit1 : (1 = (splitOnSlash t).length ∧ True) ↔ '/' ∉ t := by
        constructor
        · rintro ⟨hlen, _⟩
          rcases splitOnSlash_structure t with ⟨hns, _⟩ | ⟨u, s, _, _, hsp⟩
          · exact hns
          · rw [hsp] at hlen
            have := splitOnSlash_ne_nil s
            rcases hsp2 : splitOnSlash s with _ | ⟨x, xs⟩
            · exact absurd hsp2 this
            · rw [hsp2] at hlen
              simp at hlen
        · intro hns
          rw [splitOnSlash_no_slash t hns]
          exact ⟨rfl, trivial⟩
      rcases hseg with h1 | h2
      · subst h1
        rw [show patToks [['+']] = [MTok.plus] from rfl]
        rw [show reMatch [MTok.plus] t = matchPlus (reMatch []) t from rfl]
        rw [matchPlus_iff]
        constructor
        · rintro ⟨u, sr, rfl, hune, huns, hnil⟩
          rw [reMatch_nil_iff] at hnil
          subst hnil
          rw [List.append_nil]
          have hns : '/' ∉ u := fun hm => huns '/' hm rfl
          rw [splitOnSlash_no_slash u hns]
          refine ⟨rfl, ?_⟩
          intro pr hpr
          simp only [List.zip_cons_cons, List.zip_nil_right, List.mem_singleton] at hpr
          subst hpr
          exact Or.inl rfl
        · rintro ⟨hlen, _⟩
          have hns : '/' ∉ t := hsplit1.mp ⟨hlen, trivial⟩
          have hw : isWordSeg t = true := goodTopic_single t ht hns
          refine ⟨t, [], (List.append_nil t).symm, wordSeg_ne_nil t hw, ?_, rfl⟩
          intro c hc
          rcases goodTopic_chars t ht c hc with hwc | hsc
          · exact (wordChar_ne c hwc).1
          · exact absurd (hsc ▸ hc) hns
      · rw [show patToks [seg] = segToks seg from rfl, segToks_word seg h2]
        have : reMatch (List.map MTok.lit seg ++ []) t = reMatch (List.map MTok.lit seg) t := by
          rw [List.append_nil]
        rw [← this, reMatch_lits]
        constructor
        · rintro ⟨sr, rfl, hnil⟩
          rw [reMatch_nil_iff] at hnil
          subst hnil
          rw [List.append_nil]
          rw [splitOnSlash_no_slash seg (wordSeg_not_mem_slash seg h2)]
          refine ⟨rfl, ?_⟩
          intro pr hpr
          simp only [List.zip_cons_cons, List.zip_nil_right, List.mem_singleton] at hpr
          subst hpr
          exact Or.inr rfl
        · rintro ⟨hlen, hprs⟩
          have hns : '/' ∉ t := hsplit1.mp ⟨hlen, trivial⟩
          have hsp : splitOnSlash t = [t] := splitOnSlash_no_slash t hns
          have hpr := hprs (seg, t) (by rw [hsp]; simp)
          rcases hpr with h3 | h3
          · exact absurd h3 (wordSeg_ne_plus seg h2)
          · have h4 : seg = t := h3
            subst h4
            exact ⟨[], (List.append_nil seg).symm, rfl⟩
    · -- at least two pattern segments
      have htail : ∀ s3 ∈ s2 :: rest, s3 = ['+'] ∨ isWordSeg s3 = true :=
        fun s3 hs3 => hsegs s3 (List.mem_cons_of_mem seg hs3)
      have hlen2 : 2 ≤ (seg :: s2 :: rest).length := by simp
      constructor
      · intro hm
        rw [patToks_cons] at hm
        -- split on the shape of the first segment
        have hdecomp : ∃ u srem, t = u ++ '/' :: srem ∧ u ≠ [] ∧ '/' ∉ u
            ∧ (seg = ['+'] ∨ seg = u)
            ∧ reMatch (patToks (s2 :: rest)) srem = true := by
          rcases hseg with h1 | h2
          · subst h1
            rw [show segToks ['+'] ++ MTok.lit '/' :: patToks (s2 :: rest)
                = MTok.plus :: (MTok.lit '/' :: patToks (s2 :: rest)) from rfl] at hm
            rw [show reMatch (MTok.plus :: (MTok.lit '/' :: patToks (s2 :: rest))) t
                = matchPlus (reMatch (MTok.lit '/' :: patToks (s2 :: rest))) t from rfl] at hm
            rcases (matchPlus_iff _ t).mp hm with ⟨u, sr, rfl, hune, huns, hrem⟩
            rcases (reMatch_slash_cons _ sr).mp hrem with ⟨srem, rfl, hrem2⟩
            exact ⟨u, srem, rfl, hune, fun hmem => huns '/' hmem rfl, Or.inl rfl, hrem2⟩
          · rw [segToks_word seg h2] at hm
            rcases (reMatch_lits seg _ t).mp hm with ⟨sr, rfl, hrem⟩
            rcases (reMatch_slash_cons _ sr).mp hrem with ⟨srem, rfl, hrem2⟩
            exact ⟨seg, srem, rfl, wordSeg_ne_nil seg h2, wordSeg_not_mem_slash seg h2,
              Or.inr rfl, hrem2⟩
        rcases hdecomp with ⟨u, srem, rfl, hune, huns, hfirst, hrem⟩
        have hsp := splitOnSlash_append u srem huns
        have hgood : isWordSeg u = true ∧ goodTopic srem = true := by
          have := goodTopic_cons u srem huns
          rw [this] at ht
          exact (band_eq _ _).mp ht
        have hihres := (ih srem (List.cons_ne_nil s2 rest) htail hgood.2).mp hrem
        rw [hsp]
        refine ⟨?_, ?_⟩
        · have := hihres.1
          simp only [List.length_cons] at this ⊢
          omega
        · intro pr hpr
          rw [List.zip_cons_cons] at hpr
          rcases List.mem_cons.mp hpr with h3 | h3
          · subst h3
            rcases hfirst with h4 | h4
            · exact Or.inl h4
            · exact Or.inr h4
          · exact hihres.2 pr h3
      · rintro ⟨hlen, hprs⟩
        -- the topic must decompose at its first slash
        rcases splitOnSlash_structure t with ⟨_, hsp⟩ | ⟨u, srem, rfl, huns, hsp⟩
        · exfalso
          rw [hsp] at hlen
          have h1 : (seg :: s2 :: rest).length = 1 := by
            rw [hlen]
            rfl
          simp at h1
        · have hgood : isWordSeg u = true ∧ goodTopic srem = true := by
            have := goodTopic_cons u srem huns
            rw [this] at ht
            exact (band_eq _ _).mp ht
          rw [hsp] at hlen hprs
          have hlen3 : (s2 :: rest).length = (splitOnSlash srem).length := by
            simpa using hlen
          have hprs2 : ∀ pr ∈ (s2 :: rest).zip (splitOnSlash srem),
              pr.1 = ['+'] ∨ pr.1 = pr.2 := by
            intro pr hpr
            exact hprs pr (by rw [List.zip_cons_cons]; exact List.mem_cons_of_mem _ hpr)
          have hrem := (ih srem (List.cons_ne_nil s2 rest) htail hgood.2).mpr ⟨hlen3, hprs2⟩
          have hfirst := hprs (seg, u) (by rw [List.zip_cons_cons]; exact List.mem_cons_self _ _)
          rw [patToks_cons]
          rcases hseg with h1 | h2
          · subst h1
            rw [show segToks ['+'] ++ MTok.lit '/' :: patToks (s2 :: rest)
                = MTok.plus :: (MTok.lit '/' :: patToks (s2 :: rest)) from rfl]
            rw [show reMatch (MTok.plus :: (MTok.lit '/' :: patToks (s2 :: rest))) (u ++ '/' :: srem)
                = matchPlus (reMatch (MTok.lit '/' :: patToks (s2 :: rest))) (u ++ '/' :: srem) from rfl]
            apply (matchPlus_iff _ _).mpr
            refine ⟨u, '/' :: srem, rfl, wordSeg_ne_nil u hgood.1,
              wordSeg_no_slash_chars u hgood.1, ?_⟩
            exact (reMatch_slash_cons _ _).mpr ⟨srem, rfl, hrem⟩
          · rw [segToks_word seg h2]
            apply (reMatch_lits seg _ _).mpr
            have hse : seg = u := by
              rcases hfirst with h3 | h3
              · exact absurd h3 (wordSeg_ne_plus seg h2)
              · exact h3
            subst hse
            refine ⟨'/' :: srem, rfl, ?_⟩
            exact (reMatch_slash_cons _ _).mpr ⟨srem, rfl, hrem⟩

theorem joinSegs_hash_ne_nil (ws : List (List Char)) : joinSegs (ws ++ [['#']]) ≠ [] := by
  rcases ws with _ | ⟨w, ws⟩
  · simp [joinSegs]
  · rw [List.cons_append, joinSegs_cons_ne w (ws ++ [['#']]) (by simp)]
    simp

theorem goodTopic_no_newline (t : List Char) (ht : goodTopic t = true) :
    ∀ c ∈ t, c ≠ '\n' := by
  intro c hc
  rcases goodTopic_chars t ht c hc with hw | hs
  · exact wordChar_ne_newline c hw
  · subst hs
    decide

theorem reMatch_hashSegs (ws : List (List Char)) :
    ∀ t : List Char,
      (∀ seg ∈ ws, isWordSeg seg = true) →
      goodTopic t = true →
      (reMatch (patToks (ws ++ [['#']])) t = true ↔
        List.isPrefixOf (joinSegs (ws ++ [['#']])).dropLast t = true) := by
  induction ws with
  | nil =>
    intro t _ ht
    rw [show patToks ([] ++ [['#']]) = [MTok.hash] from rfl]
    rw [show joinSegs ([] ++ [['#']]) = ['#'] from rfl]
    rw [show (['#'] : List Char).dropLast = [] from rfl]
    constructor
    · intro _
      rw [isPrefixOf_iff_append]
      exact ⟨t, rfl⟩
    · intro _
      rw [show reMatch [MTok.hash] t = matchHash (reMatch []) t from rfl]
      apply (matchHash_iff _ t).mpr
      exact ⟨t, [], (List.append_nil t).symm, goodTopic_no_newline t ht, rfl⟩
  | cons w ws ih =>
    intro t hws ht
    have hw : isWordSeg w = true := hws w (List.mem_cons_self w ws)
    have hwtail : ∀ seg ∈ ws, isWordSeg seg = true :=
      fun seg hseg => hws seg (List.mem_cons_of_mem w hseg)
    have hjoin : joinSegs ((w :: ws) ++ [['#']])
        = w ++ '/' :: joinSegs (ws ++ [['#']]) := by
      rw [List.cons_append]
      exact joinSegs_cons_ne w (ws ++ [['#']]) (by simp)
    have hdrop : (joinSegs ((w :: ws) ++ [['#']])).dropLast
        = w ++ '/' :: (joinSegs (ws ++ [['#']])).dropLast := by
      rw [hjoin, List.dropLast_append_of_ne_nil w (by simp),
        List.dropLast_cons_of_ne_nil (joinSegs_hash_ne_nil ws)]
    have hpat : patToks ((w :: ws) ++ [['#']])
        = List.map MTok.lit w ++ MTok.lit '/' :: patToks (ws ++ [['#']]) := by
      rcases hl : ws ++ [['#']] with _ | ⟨x, xs⟩
      · exact absurd hl (by simp)
      · rw [List.cons_append, hl, patToks_cons, segToks_word w hw]
    rw [hdrop, hpat]
    constructor
    · intro hm
      rcases (reMatch_lits w _ t).mp hm with ⟨s1, rfl, hrem⟩
      rcases (reMatch_slash_cons _ s1).mp hrem with ⟨s2, rfl, hrem2⟩
      have hgood : isWordSeg w = true ∧ goodTopic s2 = true := by
        have h2 := goodTopic_cons w s2 (wordSeg_not_mem_slash w hw)
        rw [h2] at ht
        exact (band_eq _ _).mp ht
      have hpre := (ih s2 hwtail hgood.2).mp hrem2
      rcases (isPrefixOf_iff_append _ s2).mp hpre with ⟨srest, rfl⟩
      apply (isPrefixOf_iff_append _ _).mpr
      refine ⟨srest, ?_⟩
      rw [List.append_assoc, List.cons_append]
    · intro hpre
      rcases (isPrefixOf_iff_append _ t).mp hpre with ⟨srest, rfl⟩
      have hgood : goodTopic ((joinSegs (ws ++ [['#']])).dropLast ++ srest) = true := by
        have h2 := goodTopic_cons w ((joinSegs (ws ++ [['#']])).dropLast ++ srest)
          (wordSeg_not_mem_slash w hw)
        rw [show (w ++ '/' :: (joinSegs (ws ++ [['#']])).dropLast) ++ srest
            = w ++ '/' :: ((joinSegs (ws ++ [['#']])).dropLast ++ srest) from by
            rw [List.append_assoc, List.cons_append]] at ht
        rw [h2] at ht
        exact ((band_eq _ _).mp ht).2
      apply (reMatch_lits w _ _).mpr
      refine ⟨'/' :: ((joinSegs (ws ++ [['#']])).dropLast ++ srest), ?_, ?_⟩
      · rw [List.append_assoc, List.cons_append]
      · apply (reMatch_slash_cons _ _).mpr
        refine ⟨_, rfl, ?_⟩
        exact (ih _ hwtail hgood).mpr ((isPrefixOf_iff_append _ _).mpr ⟨srest, rfl⟩)

theorem zip_self_eq (l : List (List Char)) : ∀ pr ∈ l.zip l, pr.1 = pr.2 := by
  induction l with
  | nil => intro pr hpr; cases hpr
  | cons x xs ih =>
    intro pr hpr
    rw [List.zip_cons_cons] at hpr
    rcases List.mem_cons.mp hpr with h1 | h2
    · subst h1
      rfl
    · exact ih pr h2

theorem eq_of_zip_eq (l1 : List (List Char)) :
    ∀ l2 : List (List Char), l1.length = l2.length →
      (∀ pr ∈ l1.zip l2, pr.1 = pr.2) → l1 = l2 := by
  induction l1 with
  | nil =>
    intro l2 hlen _
    rcases l2 with _ | ⟨y, ys⟩
    · rfl
    · cases hlen
  | cons x xs ih =>
    intro l2 hlen hprs
    rcases l2 with _ | ⟨y, ys⟩
    · cases hlen
    · have h1 : x = y := hprs (x, y) (by rw [List.zip_cons_cons]; exact List.mem_cons_self _ _)
      have h2 : xs = ys := by
        apply ih ys (by simpa using hlen)
        intro pr hpr
        exact hprs pr (by rw [List.zip_cons_cons]; exact List.mem_cons_of_mem _ hpr)
      rw [h1, h2]

theorem goodTopic_no_plus (t : List Char) (ht : goodTopic t = true) : '+' ∉ t := by
  intro hm
  rcases goodTopic_chars t ht '+' hm with hw | hs
  · exact (wordChar_ne '+' hw).2.1 rfl
  · cases hs

theorem goodTopic_no_hash (t : List Char) (ht : goodTopic t = true) : '#' ∉ t := by
  intro hm
  rcases goodTopic_chars t ht '#' hm with hw | hs
  · exact (wordChar_ne '#' hw).2.2 rfl
  · cases hs

theorem goodTopic_dollar (t : List Char) (ht : goodTopic t = true) :
    (t.getLast? == some '\n') = false := by
  rcases h : t.getLast? with _ | c
  · rfl
  · have hc : c ∈ t := by
      rcases List.getLast?_eq_some_iff.mp h with ⟨l, hl⟩
      rw [hl]
      exact List.mem_concat_self l c
    have hne := goodTopic_no_newline t ht c hc
    simp [hne]

theorem goodPlus_segs (p : List Char) (h : goodPlusPattern p = true) :
    ∀ seg ∈ splitOnSlash p, seg = ['+'] ∨ isWordSeg seg = true := by
  intro seg hseg
  have := List.all_eq_true.mp h seg hseg
  rcases (bor_eq _ _).mp this with h1 | h2
  · exact Or.inl (beq_iff_eq.mp h1)
  · exact Or.inr h2

theorem goodHash_segs (p : List Char) (h : goodHashPattern p = true) :
    ∃ ws, splitOnSlash p = ws ++ [['#']] ∧ ∀ seg ∈ ws, isWordSeg seg = true := by
  rcases (band_eq _ _).mp h with ⟨hlast, hrest⟩
  have hlast2 : (splitOnSlash p).getLast? = some ['#'] := beq_iff_eq.mp hlast
  rcases List.getLast?_eq_some_iff.mp hlast2 with ⟨ws, hws⟩
  refine ⟨ws, hws, ?_⟩
  intro seg hseg
  apply List.all_eq_true.mp _ seg hseg
  have : (splitOnSlash p).dropLast = ws := by
    rw [hws]
    exact List.dropLast_concat
  rw [← this]
  exact hrest

theorem joinSegs_hash_getLast (ws : List (List Char)) :
    (joinSegs (ws ++ [['#']])).getLast? = some '#' := by
  induction ws with
  | nil => rfl
  | cons w ws ih =>
    rw [List.cons_append, joinSegs_cons_ne w (ws ++ [['#']]) (by simp)]
    rw [show (w ++ '/' :: joinSegs (ws ++ [['#']])) = w ++ (['/'] ++ joinSegs (ws ++ [['#']]))
        from rfl]
    rw [List.getLast?_append_of_ne_nil w (by simp),
      List.getLast?_append_of_ne_nil ['/'] (joinSegs_hash_ne_nil ws)]
    exact ih

/-- Claim C6 (amended): restricted to topics whose `/`-separated segments are
nonempty words, and to patterns whose segments are each a lone `+` or a
nonempty word, or whose final segment is a lone `#` after word segments, the
regex-based matcher agrees with the specification's segment semantics: an
exact pattern matches iff it equals the topic; a pattern containing `+`
matches iff segment counts are equal and every pattern segment is `+` or
textually equal; a pattern ending in `#` matches iff the topic starts with
the pattern's literal prefix.  Outside this class the code diverges: `+`
anywhere in a segment behaves as "one or more non-slash characters" (see the
counterexample). -/
theorem topic_match_regex_vs_spec (topic pattern : String)
    (ht : goodTopic topic.data = true)
    (hp : goodPlusPattern pattern.data = true ∨ goodHashPattern pattern.data = true) :
    topicMatchesPattern topic pattern = some (specMatch topic.data pattern.data) := by
  rcases hp with hplus | hhash
  · have hsegs := goodPlus_segs pattern.data hplus
    have hcls : ∀ seg ∈ splitOnSlash pattern.data,
        seg = ['+'] ∨ seg = ['#'] ∨ isWordSeg seg = true := by
      intro seg hseg
      rcases hsegs seg hseg with h1 | h2
      · exact Or.inl h1
      · exact Or.inr (Or.inr h2)
    have htoks : toTokens pattern.data = some (patToks (splitOnSlash pattern.data)) := by
      have h2 := toTokens_patToks (splitOnSlash pattern.data) hcls
      rw [joinSegs_splitOnSlash] at h2
      exact h2
    have hred : topicMatchesPattern topic pattern
        = some (reMatch (patToks (splitOnSlash pattern.data)) topic.data
            || ((topic.data.getLast? == some '\n')
                && reMatch (patToks (splitOnSlash pattern.data)) topic.data.dropLast)) := by
      rw [topicMatchesPattern, htoks]
    rw [hred, goodTopic_dollar topic.data ht, Bool.false_and, Bool.or_false]
    congr 1
    apply bool_eq_of_iff
    rw [reMatch_plusSegs (splitOnSlash pattern.data) topic.data
      (splitOnSlash_ne_nil pattern.data) hsegs ht]
    by_cases hpt : pattern.data = topic.data
    · rw [specMatch, if_pos hpt]
      constructor
      · intro _
        rfl
      · intro _
        rw [← hpt]
        exact ⟨rfl, fun pr hpr => Or.inr (zip_self_eq _ pr hpr)⟩
    · rw [specMatch, if_neg hpt]
      by_cases hmem : '+' ∈ pattern.data
      · rw [if_pos hmem]
        constructor
        · rintro ⟨hlen, hprs⟩
          apply (band_eq _ _).mpr
          refine ⟨beq_iff_eq.mpr hlen, ?_⟩
          apply List.all_eq_true.mpr
          intro pr hpr
          apply (bor_eq _ _).mpr
          rcases hprs pr hpr with h1 | h1
          · exact Or.inl (beq_iff_eq.mpr h1)
          · exact Or.inr (beq_iff_eq.mpr h1)
        · intro hb
          rcases (band_eq _ _).mp hb with ⟨hlen, hall⟩
          refine ⟨beq_iff_eq.mp hlen, ?_⟩
          intro pr hpr
          rcases (bor_eq _ _).mp (List.all_eq_true.mp hall pr hpr) with h1 | h1
          · exact Or.inl (beq_iff_eq.mp h1)
          · exact Or.inr (beq_iff_eq.mp h1)
      · rw [if_neg hmem]
        have hnohash : ¬(pattern.data.getLast? = some '#') := by
          intro hl
          have hm : '#' ∈ pattern.data := by
            rcases List.getLast?_eq_some_iff.mp hl with ⟨l, he⟩
            rw [he]
            exact List.mem_concat_self l '#'
          rw [← joinSegs_splitOnSlash pattern.data] at hm
          rcases mem_joinSegs_cases '#' _ hm with h1 | ⟨seg, hseg, hcs⟩
          · cases h1
          · rcases hsegs seg hseg with h2 | h2
            · subst h2
              exact absurd (List.mem_singleton.mp hcs) (by decide)
            · rcases (band_eq _ _).mp h2 with ⟨_, hall⟩
              exact (wordChar_ne '#' (List.all_eq_true.mp hall '#' hcs)).2.2 rfl
        rw [if_neg hnohash]
        constructor
        · rintro ⟨hlen, hprs⟩
          exfalso
          have hall : ∀ pr ∈ (splitOnSlash pattern.data).zip (splitOnSlash topic.data),
              pr.1 = pr.2 := by
            intro pr hpr
            rcases hprs pr hpr with h1 | h1
            · exfalso
              apply hmem
              rw [← joinSegs_splitOnSlash pattern.data]
              have hmem2 : pr.1 ∈ splitOnSlash pattern.data := (List.of_mem_zip hpr).1
              refine mem_joinSegs_of_mem '+' pr.1 _ hmem2 ?_
              rw [h1]
              simp
            · exact h1
          have heq := eq_of_zip_eq _ _ hlen hall
          apply hpt
          rw [← joinSegs_splitOnSlash pattern.data, heq, joinSegs_splitOnSlash]
        · intro hb
          cases hb
  · rcases goodHash_segs pattern.data hhash with ⟨ws, hsp, hws⟩
    have hpj : pattern.data = joinSegs (ws ++ [['#']]) := by
      rw [← joinSegs_splitOnSlash pattern.data, hsp]
    have hcls : ∀ seg ∈ splitOnSlash pattern.data,
        seg = ['+'] ∨ seg = ['#'] ∨ isWordSeg seg = true := by
      intro seg hseg
      rw [hsp] at hseg
      rcases List.mem_append.mp hseg with h1 | h2
      · exact Or.inr (Or.inr (hws seg h1))
      · exact Or.inr (Or.inl (List.mem_singleton.mp h2))
    have htoks : toTokens pattern.data = some (patToks (splitOnSlash pattern.data)) := by
      have h2 := toTokens_patToks (splitOnSlash pattern.data) hcls
      rw [joinSegs_splitOnSlash] at h2
      exact h2
    have hred : topicMatchesPattern topic pattern
        = some (reMatch (patToks (splitOnSlash pattern.data)) topic.data
            || ((topic.data.getLast? == some '\n')
                && reMatch (patToks (splitOnSlash pattern.data)) topic.data.dropLast)) := by
      rw [topicMatchesPattern, htoks]
    rw [hred, goodTopic_dollar topic.data ht, Bool.false_and, Bool.or_false]
    congr 1
    have hne2 : ¬(pattern.data = topic.data) := by
      intro he
      apply goodTopic_no_hash topic.data ht
      rw [← he, hpj]
      exact mem_joinSegs_of_mem '#' ['#'] _ (List.mem_append.mpr (Or.inr (by simp))) (by simp)
    have hplus2 : ¬('+' ∈ pattern.data) := by
      intro hm
      rw [hpj] at hm
      rcases mem_joinSegs_cases '+' _ hm with h1 | ⟨seg, hseg, hcs⟩
      · cases h1
      · rcases List.mem_append.mp hseg with h2 | h3
        · rcases (band_eq _ _).mp (hws seg h2) with ⟨_, hall⟩
          exact (wordChar_ne '+' (List.all_eq_true.mp hall '+' hcs)).2.1 rfl
        · rw [List.mem_singleton.mp h3] at hcs
          exact absurd (List.mem_singleton.mp hcs) (by decide)
    have hlast : pattern.data.getLast? = some '#' := by
      rw [hpj]
      exact joinSegs_hash_getLast ws
    rw [specMatch, if_neg hne2, if_neg hplus2, if_pos hlast]
    apply bool_eq_of_iff
    rw [hsp, reMatch_hashSegs ws topic.data hws ht]
    have hdl : pattern.data.dropLast = (joinSegs (ws ++ [['#']])).dropLast := by
      rw [hpj]
    rw [hdl]

/-- Claim C6 counterexample: the pattern `foo+` matches the topic `foobar`
under the code's regex translation, while the claim's segment semantics
rejects it (`foo+` is a single segment that is neither `+` nor equal to
`foobar`). -/
theorem topic_match_plus_cex :
    topicMatchesPattern "foobar" "foo+" = some true
    ∧ specMatch "foobar".data "foo+".data = false := by
  constructor
  · decide
  · decide

theorem topic_match_regex_vs_spec_witness :
    topicMatchesPattern "orchestrator/data/lidar_01" "orchestrator/data/+" = some true :=
  (topic_match_regex_vs_spec "orchestrator/data/lidar_01" "orchestrator/data/+"
    (by decide) (Or.inl (by decide))).trans (by decide)
